import Mathlib

/-!
Verification development for the mediax media proxy core.

Pure fragments of the Go source are embedded as Lean definitions; effectful
fragments (staging, eviction, external tool invocation) are embedded as
functions from explicit observation inputs (filesystem existence, lock
acquisition outcomes, deletion failures) to results together with a trace of
the filesystem or subprocess operations performed.
-/

namespace Mediax

/-! ## Size ladder snapping (media.FindClosest, media.ImageSizes) -/

/-- Embeds the descending ladder `ImageSizes` from the media package. -/
def ImageSizes : List Int :=
  [3840, 2560, 1920, 1600, 1280, 1024, 960, 854, 800, 720, 640, 512,
   480, 360, 320, 240, 160, 128, 96, 64, 32]

/-- Embeds `ImageQuality` from the media package. -/
def ImageQuality : List Int := [100, 90, 85, 80, 75, 60, 50]

/-- Embeds `FindClosest`: returns the first ladder entry `s` with `in >= s`
(the ladder is descending, so the largest entry that is at most the input);
when no entry qualifies, returns the last entry; an empty ladder returns the
input unchanged. -/
def FindClosest (i : Int) (sizes : List Int) : Int :=
  match sizes.find? (fun s => decide (s ≤ i)) with
  | some s => s
  | none => sizes.getLastD i

/-- Embeds the width/height snapping step of `Type.ParseOptions`: the parsed
dimension is replaced by `FindClosest` over `ImageSizes` only when positive. -/
def snapDimension (n : Int) : Int :=
  if 0 < n then FindClosest n ImageSizes else n

/-! ## HTTP range serving (Request.ServeFile, range portion) -/

/-- Characters Go unicode.IsSpace recognises within ASCII (space, tab,
newline, vertical tab, form feed, carriage return). -/
def goIsSpace (c : Char) : Bool :=
  c = ' ' || c = '\t' || c = '\n' || c = Char.ofNat 11 || c = Char.ofNat 12 || c = '\r'

/-- Embeds Go strings.TrimSpace over the character list of a string. -/
def goTrimSpace (l : List Char) : List Char :=
  ((l.dropWhile goIsSpace).reverse.dropWhile goIsSpace).reverse

/-- Embeds Go strings.Split with a one-character separator: splits at every
occurrence of the separator, keeping empty fragments; the result is never
the empty list. -/
def goSplitChar (sep : Char) : List Char → List (List Char)
  | [] => [[]]
  | c :: rest =>
    match goSplitChar sep rest with
    | [] => [[]]
    | h :: t => if c = sep then [] :: h :: t else (c :: h) :: t

/-- Embeds the digit-accumulation loop of Go strconv.ParseInt: consumes
decimal digits, failing on any non-digit character. -/
def digitsToNat (acc : Nat) : List Char → Option Nat
  | [] => some acc
  | c :: cs => if c.isDigit then digitsToNat (acc * 10 + (c.toNat - 48)) cs else none

/-- Embeds Go strconv.ParseInt(s, 10, 64): optional sign, at least one digit,
decimal digits only, result within the int64 range; any violation is an
error (modelled as none). -/
def goParseInt64 (s : List Char) : Option Int :=
  let p : Bool × List Char :=
    match s with
    | '+' :: rest => (false, rest)
    | '-' :: rest => (true, rest)
    | rest => (false, rest)
  match p.2 with
  | [] => none
  | ds =>
    match digitsToNat 0 ds with
    | none => none
    | some n =>
      let v : Int := if p.1 then -(n : Int) else (n : Int)
      if v < -(2 ^ 63) ∨ 2 ^ 63 - 1 < v then none else some v

/-- RangeOutcome models the observable response of the range portion of
Request.ServeFile: 200 full body, 400, 416, or 206 with start, end,
Content-Length and the Content-Range header value. -/
inductive RangeOutcome where
  | ok200 : RangeOutcome
  | badRequest : RangeOutcome
  | notSatisfiable : RangeOutcome
  | content206 (first last length : Int) (contentRange : String) : RangeOutcome
deriving DecidableEq, Repr

/-- Formats the Content-Range header exactly as the fmt.Sprintf in ServeFile. -/
def contentRangeStr (s e size : Int) : String :=
  "bytes " ++ toString s ++ "-" ++ toString e ++ "/" ++ toString size

/-- Embeds the suffix-byte-range branch of ServeFile (header form "-suffix"). -/
def suffixCase (fileSize suffix : Int) : RangeOutcome :=
  if suffix ≤ 0 then .badRequest
  else
    let s := if suffix ≥ fileSize then 0 else fileSize - suffix
    .content206 s (fileSize - 1) (fileSize - 1 - s + 1)
      (contentRangeStr s (fileSize - 1) fileSize)

/-- Embeds the open-ended branch of ServeFile (header form "start-"). -/
def openCase (fileSize s : Int) : RangeOutcome :=
  if s < 0 then .badRequest
  else if s ≥ fileSize then .notSatisfiable
  else
    .content206 s (fileSize - 1) (fileSize - 1 - s + 1)
      (contentRangeStr s (fileSize - 1) fileSize)

/-- Embeds the bounded branch of ServeFile (header form "start-end"): reject
end < start, clamp end to size-1, reject start ≥ size with 416. -/
def boundedCase (fileSize s e0 : Int) : RangeOutcome :=
  if s < 0 then .badRequest
  else if e0 < s then .badRequest
  else
    let e := if e0 ≥ fileSize then fileSize - 1 else e0
    if s ≥ fileSize then .notSatisfiable
    else .content206 s e (e - s + 1) (contentRangeStr s e fileSize)

/-- Embeds the dispatch of ServeFile on the two halves of the first range
specifier (after splitting on "-"): empty/non-empty selects the suffix,
open-ended or bounded branch; both empty is a bad request, and every parse
failure is a bad request. -/
def rangeDecision (fileSize : Int) (a b : List Char) : RangeOutcome :=
  if a = [] ∧ b ≠ [] then
    match goParseInt64 b with
    | none => .badRequest
    | some suffix => suffixCase fileSize suffix
  else if a ≠ [] ∧ b = [] then
    match goParseInt64 a with
    | none => .badRequest
    | some s => openCase fileSize s
  else if a ≠ [] ∧ b ≠ [] then
    match goParseInt64 a with
    | none => .badRequest
    | some s =>
      match goParseInt64 b with
      | none => .badRequest
      | some e0 => boundedCase fileSize s e0
  else .badRequest

/-- Embeds the range portion of Request.ServeFile: an empty Range header is
the 200 path; a header without the "bytes=" prefix is a bad request; the
first comma-separated specifier is trimmed and split on "-" (exactly two
parts required), then dispatched to rangeDecision. -/
def serveRange (fileSize : Int) (rangeHeader : String) : RangeOutcome :=
  let hdr := rangeHeader.data
  if hdr = [] then .ok200
  else if ¬ List.isPrefixOf "bytes=".data hdr then .badRequest
  else
    let r := hdr.drop 6
    let rangeSpecs := goSplitChar ',' r
    let spec := goTrimSpace (rangeSpecs.headD [])
    let ranges := goSplitChar '-' spec
    if ranges.length ≠ 2 then .badRequest
    else rangeDecision fileSize (ranges.getD 0 []) (ranges.getD 1 [])

/-! ## Conditional requests (Request.ServeFile, ETag / 304 portion) -/

/-- Embeds Go fmt %x applied to a non-negative value: lowercase hex digits. -/
def natToHex (n : Nat) : String := ⟨Nat.toDigits 16 n⟩

/-- Embeds Go fmt %x applied to an int64: a minus sign followed by the hex
magnitude for negative values, plain hex otherwise. -/
def intToHex (i : Int) : String :=
  if i < 0 then "-" ++ natToHex i.natAbs else natToHex i.toNat

/-- Embeds the ETag construction of Request.ServeFile:
fmt.Sprintf with the quoted pattern hex(mtime.Unix()), dash, hex(size). -/
def etagOf (mtimeUnix size : Int) : String :=
  "\"" ++ intToHex mtimeUnix ++ "-" ++ intToHex size ++ "\""

/-- Embeds the conditional-request prologue of Request.ServeFile. `inm` is
the inbound If-None-Match header ("" when absent); `ims` is the outcome of
time.Parse(RFC1123) on the If-Modified-Since header as unix seconds (none
when the header is empty or unparsable). Returns true when the request is
answered 304 before any body is produced. The code first compares
If-None-Match against the ETag, then falls back to the modification-time
comparison !mtime.After(t), i.e. mtime ≤ t. -/
def conditional304 (mtimeUnix size : Int) (inm : String) (ims : Option Int) : Bool :=
  if inm = etagOf mtimeUnix size then true
  else
    match ims with
    | some t => decide (mtimeUnix ≤ t)
    | none => false

/-! ## Cache eviction (media.EvictCache) -/

/-- One regular file seen by the eviction walk. -/
structure CacheFile where
  path : String
  size : Int
  mtime : Int
deriving DecidableEq, Repr

/-- Embeds strings.HasSuffix(p, ".lock") used to protect lock files. -/
def isLockFile (p : String) : Bool := List.isSuffixOf ".lock".data p.data

/-- Non-lock regular files gathered by the eviction walk. -/
def nonLockFiles (files : List CacheFile) : List CacheFile :=
  files.filter (fun f => ¬ isLockFile f.path)

/-- Total size of a list of files. -/
def totalSize (files : List CacheFile) : Int := (files.map (·.size)).sum

/-- Embeds the sort.Slice call of EvictCache: ascending modification time
(insertion sort; the Go sort is unstable but ties are unconstrained). -/
def sortByMtime (files : List CacheFile) : List CacheFile :=
  files.insertionSort (fun a b => a.mtime ≤ b.mtime)

/-- Embeds the deletion loop of EvictCache: walk the sorted entries, stop
once the running total is within budget, skip entries whose os.Remove fails
(`failing` paths), subtract the size of each successfully removed file.
Returns the list of files actually removed, in removal order. -/
def evictLoop (maxBytes : Int) (failing : List String) :
    List CacheFile → Int → List CacheFile
  | [], _ => []
  | e :: rest, total =>
    if total ≤ maxBytes then []
    else if e.path ∈ failing then evictLoop maxBytes failing rest total
    else e :: evictLoop maxBytes failing rest (total - e.size)

/-- Embeds EvictCache(dir, maxBytes): returns the files deleted by one
eviction pass over the given directory listing, where `failing` is the set
of paths whose deletion fails. A non-positive budget, or an initial non-lock
total within budget, deletes nothing. -/
def evictDeleted (maxBytes : Int) (failing : List String)
    (files : List CacheFile) : List CacheFile :=
  if maxBytes ≤ 0 then []
  else
    let entries := nonLockFiles files
    let total := totalSize entries
    if total ≤ maxBytes then []
    else evictLoop maxBytes failing (sortByMtime entries) total

/-! ## Video thumbnails (encoders.generateThumbnail, getQualityDimensions) -/

/-- Lowercases an ASCII letter, as Go strings.ToLower does per rune. -/
def goToLowerChar (c : Char) : Char :=
  if 'A' ≤ c ∧ c ≤ 'Z' then Char.ofNat (c.toNat + 32) else c

/-- Embeds Go strings.ToLower (ASCII fragment). -/
def goToLower (s : String) : String := ⟨s.data.map goToLowerChar⟩

/-- Embeds encoders.getQualityDimensions: width and height for the named
quality presets, defaulting to 480p dimensions. -/
def getQualityDimensions (quality : String) : Int × Int :=
  let q := goToLower quality
  if q = "480p" then (854, 480)
  else if q = "720p" then (1280, 720)
  else if q = "1080p" then (1920, 1080)
  else if q = "4k" then (3840, 2160)
  else (854, 480)

/-- Embeds the timestamp choice of encoders.generateThumbnail: the ss option
when non-zero, otherwise half the probed duration (the probe result is the
`duration` argument). -/
def thumbnailTimestamp (ss : Int) (duration : ℚ) : ℚ :=
  if ss = 0 then duration / 2 else (ss : ℚ)

/-- Embeds the ImageMagick argument construction of generateThumbnail:
a literal WxH thumbnail spec (detected by containing "x") resizes to fill
and center-crops to the exact spec; a preset name resizes to the preset
dimensions; a positive quality appends -quality. -/
def thumbnailConvertArgs (jpegPath thumb : String) (quality : Int)
    (finalPath : String) : List String :=
  let args := [jpegPath]
  let args :=
    if thumb.data.contains 'x' then
      args ++ ["-resize", thumb ++ "^", "-gravity", "center",
               "-crop", thumb ++ "+0+0"]
    else
      args ++ ["-resize",
        toString (getQualityDimensions thumb).1 ++ "x" ++
          toString (getQualityDimensions thumb).2]
  let args := if 0 < quality then args ++ ["-quality", toString quality] else args
  args ++ [finalPath]

/-! ## Video processing dispatch (encoders.processVideo) -/

/-- The derivation selected by one call to processVideo. -/
inductive VideoAction where
  | metadata : VideoAction
  | preview : VideoAction
  | thumbnail : VideoAction
  | passThrough : VideoAction
deriving DecidableEq, Repr

/-- Embeds the dispatch of encoders.processVideo: detail requests produce
JSON metadata; otherwise a non-empty preview option produces a preview;
otherwise a non-empty thumbnail option produces a thumbnail; otherwise the
function returns nil without assigning ProcessedFilePath (pass-through). -/
def processVideoAction (detail : Bool) (preview thumbnail : String) : VideoAction :=
  if detail then .metadata
  else if preview ≠ "" then .preview
  else if thumbnail ≠ "" then .thumbnail
  else .passThrough

/-- Whether the selected branch assigns ProcessedFilePath on success: every
branch except pass-through does. -/
def videoActionSetsPath : VideoAction → Bool
  | .passThrough => false
  | _ => true

/-! ## Path cleaning and joining (Go path/filepath, unix rules), used by
Storage.StageFile and the derivation path constructions. -/

/-- True when the path (as characters) is rooted (starts with the
separator). -/
def isRootedL (l : List Char) : Bool :=
  match l with
  | c :: _ => c = '/'
  | [] => false

/-- The component-stack loop of Go filepath.Clean: empty and "." components
are skipped; ".." pops a component when possible (always, when rooted;
when not rooted, only a component that is not itself ".."), is dropped at
the root, and is kept when not rooted with nothing to pop. The accumulator
holds the output components in reverse. -/
def normAux (rooted : Bool) : List (List Char) → List (List Char) → List (List Char)
  | [], out => out.reverse
  | c :: rest, out =>
    if c = [] ∨ c = ['.'] then normAux rooted rest out
    else if c = ['.', '.'] then
      match out with
      | [] => if rooted then normAux rooted rest [] else normAux rooted rest [c]
      | top :: outRest =>
        if ¬ rooted ∧ top = ['.', '.'] then normAux rooted rest (c :: out)
        else normAux rooted rest outRest
    else normAux rooted rest (c :: out)

/-- Joins components with the separator (no leading or trailing separator). -/
def joinComps : List (List Char) → List Char
  | [] => []
  | [c] => c
  | c :: rest => c ++ '/' :: joinComps rest

/-- Embeds Go filepath.Clean on unix: split on the separator, run the
component stack, rebuild; the empty result is "/" when rooted and "."
otherwise. -/
def goCleanList (l : List Char) : List Char :=
  let rooted := isRootedL l
  let body := joinComps (normAux rooted (goSplitChar '/' l) [])
  if rooted then '/' :: body
  else if body = [] then ['.']
  else body

/-- String form of goCleanList. -/
def goClean (s : String) : String := ⟨goCleanList s.data⟩

/-- Embeds Go filepath.Join for two elements: empty elements are skipped,
the rest joined with the separator and cleaned; all-empty input gives "". -/
def goJoin2 (a b : String) : String :=
  if a = "" then (if b = "" then "" else goClean b)
  else if b = "" then goClean a
  else goClean ⟨a.data ++ '/' :: b.data⟩

/-- Embeds Go strings.HasPrefix(s, pre). -/
def goHasPrefix (s pre : String) : Bool := List.isPrefixOf pre.data s.data

/-- Embeds Go filepath.Dir: everything up to the final separator, cleaned;
"." when the path has no separator. -/
def goDir (p : String) : String :=
  let rev := p.data.reverse
  let dirRev := rev.dropWhile (fun c => ¬ c = '/')
  goClean ⟨dirRev.reverse⟩

/-! ## Staging (Storage.StageFile) -/

/-- The sentinel path Storage.StageFile returns when the poll budget is
exhausted while another fetcher holds the lock. -/
def STAGING : String := "__STAGING__"

/-- One filesystem or storage operation performed by StageFile. -/
inductive FsOp where
  | statFile (p : String) : FsOp
  | mkdirAll (p : String) : FsOp
  | openExcl (p : String) : FsOp
  | statOp (p : String) : FsOp
  | removeOp (p : String) : FsOp
  | fetch (src dst : String) : FsOp
deriving DecidableEq, Repr

/-- Outcome observed by one iteration of the lock-acquisition loop:
exclusive create succeeded; create failed with a non-IsExist error; the lock
exists and its mtime is stale; exists and fresh; exists but the follow-up
Stat failed. -/
inductive LockAttempt where
  | acquired : LockAttempt
  | failOther : LockAttempt
  | existsStale : LockAttempt
  | existsFresh : LockAttempt
  | existsStatGone : LockAttempt
deriving DecidableEq, Repr

/-- How the lock loop ended: lock acquired, non-IsExist create error, poll
budget exhausted (STAGING), or the observation list ran out (model artifact,
the loop is still running). -/
inductive LockPhase where
  | acquired : LockPhase
  | openErr : LockPhase
  | staging : LockPhase
  | outOfObs : LockPhase
deriving DecidableEq, Repr

/-- MAX_POLL_CYCLES of Storage.StageFile. -/
def lockPollCycles : Nat := 10

/-- Embeds the lock-acquisition loop of Storage.StageFile: each iteration
attempts O_CREATE|O_EXCL; on IsExist it Stats the lock, force-removes a
stale one and retries immediately, and otherwise gives up with the STAGING
sentinel once the counter reaches lockPollCycles (the counter also advances
on stale retries, as the loop post-statement runs on continue). Returns the
final phase and the operations performed. -/
def lockLoop (lockPath : String) : List LockAttempt → Nat → LockPhase × List FsOp
  | [], _ => (.outOfObs, [])
  | o :: rest, c =>
    match o with
    | .acquired => (.acquired, [.openExcl lockPath])
    | .failOther => (.openErr, [.openExcl lockPath])
    | .existsStale =>
      let r := lockLoop lockPath rest (c + 1)
      (r.1, .openExcl lockPath :: .statOp lockPath :: .removeOp lockPath :: r.2)
    | .existsFresh =>
      if c ≥ lockPollCycles then (.staging, [.openExcl lockPath, .statOp lockPath])
      else
        let r := lockLoop lockPath rest (c + 1)
        (r.1, .openExcl lockPath :: .statOp lockPath :: r.2)
    | .existsStatGone =>
      if c ≥ lockPollCycles then (.staging, [.openExcl lockPath, .statOp lockPath])
      else
        let r := lockLoop lockPath rest (c + 1)
        (r.1, .openExcl lockPath :: .statOp lockPath :: r.2)

/-- Result of one Storage.StageFile call: the returned path value, whether
an error was returned, and the operations performed. -/
structure StageRun where
  returned : String
  isError : Bool
  ops : List FsOp
deriving DecidableEq, Repr

/-- Embeds Storage.StageFile: join the storage and cache paths, reject
traversal before any filesystem operation, return the staged path on cache
hit, ensure the parent directory, acquire the lock, fetch, and remove the
lock on every exit path of the fetch. `stagedExists`, `mkdirOk`, `obs` and
`fetchOk` are the outcomes of the filesystem operations; none is returned
when the lock loop outruns the observations. -/
def StageFileModel (basePath cacheDir path : String)
    (stagedExists mkdirOk : Bool) (obs : List LockAttempt) (fetchOk : Bool) :
    Option StageRun :=
  let filePath := goJoin2 basePath path
  let stagedPath := goJoin2 cacheDir path
  if basePath ≠ "" ∧
      goHasPrefix (goClean filePath) (goClean basePath ++ "/") = false then
    some ⟨"", true, []⟩
  else if goHasPrefix (goClean stagedPath) (goClean cacheDir ++ "/") = false then
    some ⟨"", true, []⟩
  else if stagedExists then
    some ⟨stagedPath, false, [.statFile stagedPath]⟩
  else if mkdirOk = false then
    some ⟨"", true, [.statFile stagedPath, .mkdirAll (goDir stagedPath)]⟩
  else
    let lockPath := stagedPath ++ ".lock"
    let r := lockLoop lockPath obs 0
    let pre : List FsOp := [.statFile stagedPath, .mkdirAll (goDir stagedPath)]
    match r.1 with
    | .outOfObs => none
    | .openErr => some ⟨stagedPath, true, pre ++ r.2⟩
    | .staging => some ⟨STAGING, true, pre ++ r.2⟩
    | .acquired =>
      if fetchOk then
        some ⟨stagedPath, false,
          pre ++ r.2 ++ [.fetch filePath stagedPath, .removeOp lockPath]⟩
      else
        some ⟨"", true,
          pre ++ r.2 ++ [.fetch filePath stagedPath, .removeOp lockPath]⟩

/-! ## Staging failure semantics (Request.StageFile and ServeMedia) -/

/-- Embeds the storage loop of Request.StageFile: each attempt overwrites
StagedFilePath with the returned path; the first success returns it; when
every storage fails the loop falls through with the last attempt's returned
path in StagedFilePath and a non-nil error. -/
def requestStage : List (String × Bool) → String → String × Bool
  | [], cur => (cur, true)
  | (ret, isErr) :: rest, _ =>
    if isErr then requestStage rest ret else (ret, false)

/-- The pipeline-visible outcome of the staging step in ServeMedia. -/
inductive StageResponse where
  | served : StageResponse
  | redirect307 : StageResponse
  | notFound : StageResponse
deriving DecidableEq, Repr

/-- Embeds the staging-failure branch of Controller.ServeMedia: on error,
redirect with no-cache headers when StagedFilePath equals the STAGING
sentinel, otherwise NotFound. -/
def serveMediaStaging (attempts : List (String × Bool)) : StageResponse :=
  let r := requestStage attempts ""
  if r.2 = false then .served
  else if r.1 = STAGING then .redirect307
  else .notFound

/-! ## Single-flight interleaving model (Storage.StageFile lock protocol) -/

/-- Program counter of one requester running the lock protocol. -/
inductive PC where
  | tryAcquire : PC
  | checkStale : PC
  | removeStale : PC
  | fetching : PC
  | done : PC
deriving DecidableEq, Repr

/-- State of the shared lock file. -/
inductive LockState where
  | absent : LockState
  | stale : LockState
  | heldBy (i : Nat) : LockState
deriving DecidableEq, Repr

/-- Global state: the lock file and every requester's program counter. -/
structure SysState where
  lock : LockState
  pcs : List PC
deriving DecidableEq, Repr

/-- One atomic OS action of requester i, mirroring the loop body of
Storage.StageFile: O_CREATE|O_EXCL create (atomic), Stat (stale check),
unconditional os.Remove of whatever lock now exists, and fetch completion
followed by the deferred lock removal. -/
def stepActor (s : SysState) (i : Nat) : SysState :=
  match s.pcs.getD i .done with
  | .tryAcquire =>
    match s.lock with
    | .absent => ⟨.heldBy i, s.pcs.set i .fetching⟩
    | _ => ⟨s.lock, s.pcs.set i .checkStale⟩
  | .checkStale =>
    match s.lock with
    | .stale => ⟨s.lock, s.pcs.set i .removeStale⟩
    | _ => ⟨s.lock, s.pcs.set i .tryAcquire⟩
  | .removeStale => ⟨.absent, s.pcs.set i .tryAcquire⟩
  | .fetching => ⟨.absent, s.pcs.set i .done⟩
  | .done => s

/-- Runs a schedule (list of requester indices), one atomic action each. -/
def runSched (s : SysState) : List Nat → SysState
  | [] => s
  | i :: rest => runSched (stepActor s i) rest

/-- The mutual-exclusion invariant: the lock is never stale, nobody is about
to remove a lock, and a fetching requester holds the lock. -/
def MutexInv (s : SysState) : Prop :=
  s.lock ≠ .stale ∧
  (∀ i, s.pcs.getD i .done ≠ .removeStale) ∧
  (∀ i, s.pcs.getD i .done = .fetching → s.lock = .heldBy i)

/-! ## MD5 (Go crypto/md5, used by the derivation cache keys) -/

def m32 (x : Nat) : Nat := x % 4294967296

def rotl32 (x c : Nat) : Nat := ((x <<< c) ||| (x >>> (32 - c))) % 4294967296

def md5K : List Nat :=
  [0xd76aa478, 0xe8c7b756, 0x242070db, 0xc1bdceee,
   0xf57c0faf, 0x4787c62a, 0xa8304613, 0xfd469501,
   0x698098d8, 0x8b44f7af, 0xffff5bb1, 0x895cd7be,
   0x6b901122, 0xfd987193, 0xa679438e, 0x49b40821,
   0xf61e2562, 0xc040b340, 0x265e5a51, 0xe9b6c7aa,
   0xd62f105d, 0x02441453, 0xd8a1e681, 0xe7d3fbc8,
   0x21e1cde6, 0xc33707d6, 0xf4d50d87, 0x455a14ed,
   0xa9e3e905, 0xfcefa3f8, 0x676f02d9, 0x8d2a4c8a,
   0xfffa3942, 0x8771f681, 0x6d9d6122, 0xfde5380c,
   0xa4beea44, 0x4bdecfa9, 0xf6bb4b60, 0xbebfbc70,
   0x289b7ec6, 0xeaa127fa, 0xd4ef3085, 0x04881d05,
   0xd9d4d039, 0xe6db99e5, 0x1fa27cf8, 0xc4ac5665,
   0xf4292244, 0x432aff97, 0xab9423a7, 0xfc93a039,
   0x655b59c3, 0x8f0ccc92, 0xffeff47d, 0x85845dd1,
   0x6fa87e4f, 0xfe2ce6e0, 0xa3014314, 0x4e0811a1,
   0xf7537e82, 0xbd3af235, 0x2ad7d2bb, 0xeb86d391]

def md5S : List Nat :=
  [7, 12, 17, 22, 7, 12, 17, 22, 7, 12, 17, 22, 7, 12, 17, 22,
   5, 9, 14, 20, 5, 9, 14, 20, 5, 9, 14, 20, 5, 9, 14, 20,
   4, 11, 16, 23, 4, 11, 16, 23, 4, 11, 16, 23, 4, 11, 16, 23,
   6, 10, 15, 21, 6, 10, 15, 21, 6, 10, 15, 21, 6, 10, 15, 21]

def md5Round (M : List Nat) (st : Nat × Nat × Nat × Nat) (i : Nat) :
    Nat × Nat × Nat × Nat :=
  let a := st.1
  let b := st.2.1
  let c := st.2.2.1
  let d := st.2.2.2
  let fg : Nat × Nat :=
    if i < 16 then ((b &&& c) ||| ((b ^^^ 0xffffffff) &&& d), i)
    else if i < 32 then ((b &&& d) ||| (c &&& (d ^^^ 0xffffffff)), (5 * i + 1) % 16)
    else if i < 48 then (b ^^^ c ^^^ d, (3 * i + 5) % 16)
    else (c ^^^ (b ||| (d ^^^ 0xffffffff)), (7 * i) % 16)
  let tmp := m32 (fg.1 + a + md5K.getD i 0 + M.getD fg.2 0)
  (d, m32 (b + rotl32 tmp (md5S.getD i 0)), b, c)

def md5Compress (st : Nat × Nat × Nat × Nat) (M : List Nat) :
    Nat × Nat × Nat × Nat :=
  let f := (List.range 64).foldl (md5Round M) st
  (m32 (st.1 + f.1), m32 (st.2.1 + f.2.1), m32 (st.2.2.1 + f.2.2.1),
   m32 (st.2.2.2 + f.2.2.2))

def le4 (x : Nat) : List Nat :=
  [x % 256, x / 256 % 256, x / 65536 % 256, x / 16777216 % 256]

def le8 (x : Nat) : List Nat :=
  [x % 256, x / 2 ^ 8 % 256, x / 2 ^ 16 % 256, x / 2 ^ 24 % 256,
   x / 2 ^ 32 % 256, x / 2 ^ 40 % 256, x / 2 ^ 48 % 256, x / 2 ^ 56 % 256]

def bytesToWords : List Nat → List Nat
  | b0 :: b1 :: b2 :: b3 :: rest =>
    (b0 + 256 * b1 + 65536 * b2 + 16777216 * b3) :: bytesToWords rest
  | _ => []

def toBlocksFuel : Nat → List Nat → List (List Nat)
  | 0, _ => []
  | _ + 1, [] => []
  | fuel + 1, l => l.take 64 :: toBlocksFuel fuel (l.drop 64)

def md5Pad (msg : List Nat) : List Nat :=
  msg ++ 0x80 :: List.replicate ((64 + 56 - (msg.length + 1) % 64) % 64) 0 ++
    le8 (msg.length * 8)

def md5Bytes (msg : List Nat) : List Nat :=
  let padded := md5Pad msg
  let blocks := toBlocksFuel padded.length padded
  let st := blocks.foldl (fun st blk => md5Compress st (bytesToWords blk))
    (0x67452301, 0xefcdab89, 0x98badcfe, 0x10325476)
  le4 st.1 ++ le4 st.2.1 ++ le4 st.2.2.1 ++ le4 st.2.2.2

def utf8Bytes (c : Char) : List Nat :=
  let n := c.toNat
  if n < 0x80 then [n]
  else if n < 0x800 then [0xC0 + n / 64, 0x80 + n % 64]
  else if n < 0x10000 then
    [0xE0 + n / 4096, 0x80 + n / 64 % 64, 0x80 + n % 64]
  else
    [0xF0 + n / 262144, 0x80 + n / 4096 % 64, 0x80 + n / 64 % 64,
     0x80 + n % 64]

def strBytes (s : String) : List Nat := (s.data.map utf8Bytes).flatten

def byteHex (b : Nat) : List Char := [Nat.digitChar (b / 16), Nat.digitChar (b % 16)]

def md5hex (s : String) : String := ⟨((md5Bytes (strBytes s)).map byteHex).flatten⟩

/-! ## Derivation cache paths (encoders.convertImage, generateThumbnail) -/

/-- The option fields Options.ToString serializes, as parsed for an image
request. -/
structure ImgOptions where
  Width : Int
  Height : Int
  KeepAspectRatio : Bool
  Quality : Int
  CropDirection : String
  OutputFormat : String
  Profile : String
deriving DecidableEq, Repr

/-- Embeds Options.ToString: fmt.Sprintf with width, height, aspect flag,
quality, crop direction and profile. -/
def optionsToString (o : ImgOptions) : String :=
  toString o.Width ++ "x" ++ toString o.Height ++ "a" ++
    (if o.KeepAspectRatio then "true" else "false") ++ "q" ++
    toString o.Quality ++ "d" ++ o.CropDirection ++ "p" ++ o.Profile

/-- Embeds Go filepath.Ext: the suffix beginning at the final dot in the
final path element; empty when the final element has no dot. -/
def goExt (p : String) : String :=
  let rev := p.data.reverse
  let seg := rev.takeWhile (fun c => decide (c ≠ '.' ∧ c ≠ '/'))
  match rev.drop seg.length with
  | '.' :: _ => ⟨'.' :: seg.reverse⟩
  | _ => ""

/-- Embeds Go strings.TrimSuffix. -/
def goTrimSuffix (s suffix : String) : String :=
  if List.isSuffixOf suffix.data s.data then
    ⟨s.data.take (s.data.length - suffix.data.length)⟩
  else s

/-- Embeds the output path construction of encoders.convertImage: the staged
path without its extension, the option fingerprint, a dot and the output
format. -/
def convertImagePath (stagedPath : String) (o : ImgOptions) : String :=
  goTrimSuffix stagedPath (goExt stagedPath) ++ optionsToString o ++ "." ++
    o.OutputFormat

/-- Result of one derivation call: the path assigned to ProcessedFilePath
and whether any external tool was invoked. -/
structure DeriveRun where
  processedPath : String
  ranTools : Bool
deriving DecidableEq, Repr

/-- Embeds encoders.convertImage up to the external convert call: compute
the deterministic output path; when the file already exists return
immediately (cache hit, no tool work), otherwise invoke the tool.
`fsExists` is the gpath.IsFileExist observation. -/
def convertImage (stagedPath : String) (o : ImgOptions)
    (fsExists : String → Bool) : DeriveRun :=
  let path := convertImagePath stagedPath o
  if fsExists path then ⟨path, false⟩ else ⟨path, true⟩

/-- Embeds encoders.generateCacheKey: md5 hex of the original path and the
preview, thumbnail, ss and output-format options joined by underscores. -/
def generateCacheKey (originalPath preview thumbnail : String) (ss : Int)
    (outputFormat : String) : String :=
  md5hex (originalPath ++ "_" ++ preview ++ "_" ++ thumbnail ++ "_" ++
    toString ss ++ "_" ++ outputFormat)

/-- Embeds encoders.getImageFormat: format and file extension for the
output format, defaulting to jpg. -/
def getImageFormat (outputFormat : String) : String × String :=
  let f := goToLower outputFormat
  if f = "webp" then ("webp", "webp")
  else if f = "jpg" ∨ f = "jpeg" then ("jpg", "jpg")
  else if f = "png" then ("png", "png")
  else if f = "avif" then ("avif", "avif")
  else ("jpg", "jpg")

/-- Embeds the final-path construction of encoders.generateThumbnail:
thumbnails subdirectory of the project cache, file named by the cache key,
the thumbnail spec and the final extension (output format defaulted to
jpeg for the extension, while the cache key uses the raw option). -/
def thumbnailFinalPath (cacheDir originalPath preview thumbnail : String)
    (ss : Int) (outputFormat0 : String) : String :=
  let outputFormat := if outputFormat0 = "" then "jpeg" else outputFormat0
  let key := generateCacheKey originalPath preview thumbnail ss outputFormat0
  let finalExt := (getImageFormat outputFormat).2
  goJoin2 (goJoin2 cacheDir "thumbnails")
    (key ++ "_" ++ thumbnail ++ "." ++ finalExt)

/-- Embeds encoders.generateThumbnail up to the external tool calls: on an
existing final path return it with no tool work, else extract and convert. -/
def generateThumbnailRun (cacheDir originalPath preview thumbnail : String)
    (ss : Int) (outputFormat0 : String) (fsExists : String → Bool) :
    DeriveRun :=
  let path := thumbnailFinalPath cacheDir originalPath preview thumbnail ss
    outputFormat0
  if fsExists path then ⟨path, false⟩ else ⟨path, true⟩

/-! ## Theorems -/

theorem findClosest_mem_le {i : Int} {l : List Int} {s : Int}
    (h : l.find? (fun s => decide (s ≤ i)) = some s) : s ∈ l ∧ s ≤ i := by
  refine ⟨List.mem_of_find?_eq_some h, ?_⟩
  have := List.find?_some h
  simpa using this

theorem findClosest_greatest {i : Int} {l : List Int}
    (hsort : l.Sorted (· > ·)) :
    ∀ v ∈ l, v ≤ i → v ≤ FindClosest i l := by
  induction l with
  | nil => intro v hv; simp at hv
  | cons s rest ih =>
    intro v hv hvi
    unfold FindClosest
    rw [List.find?_cons]
    by_cases hsi : s ≤ i
    · simp only [hsi, decide_True]
      rcases List.mem_cons.mp hv with rfl | hvrest
      · exact le_refl v
      · exact le_of_lt (List.rel_of_sorted_cons hsort v hvrest)
    · simp only [hsi, decide_False]
      have hvs : v ∈ rest := by
        rcases List.mem_cons.mp hv with rfl | hvrest
        · exact absurd hvi hsi
        · exact hvrest
      cases hfind : rest.find? (fun s => decide (s ≤ i)) with
      | some t =>
        have h2 := ih (List.sorted_cons.mp hsort).2 v hvs hvi
        unfold FindClosest at h2
        rw [hfind] at h2
        simp only [hfind]
        simpa using h2
      | none =>
        exfalso
        have hlt := List.find?_eq_none.mp hfind v hvs
        simp at hlt
        omega

theorem findClosest_of_all_gt {i : Int} {l : List Int}
    (h : ∀ v ∈ l, i < v) :
    FindClosest i l = l.getLastD i := by
  unfold FindClosest
  have hnone : l.find? (fun s => decide (s ≤ i)) = none := by
    rw [List.find?_eq_none]
    intro v hv
    simpa using not_le.mpr (h v hv)
  rw [hnone]

theorem imageSizes_sorted : ImageSizes.Sorted (· > ·) := by
  unfold ImageSizes
  decide

/-- C4: for every parsed width or height option with value n > 0, the stored
dimension is obtained by ladder snapping: for n ≥ 32 it is the largest ladder
entry that is ≤ n; for 0 < n < 32 it is the ladder minimum 32; and with an
empty ladder `FindClosest` returns its input unchanged. -/
theorem claim_C4_ladder_snapping :
    (∀ n : Int, 0 < n → 32 ≤ n →
      snapDimension n ∈ ImageSizes ∧ snapDimension n ≤ n ∧
        ∀ v ∈ ImageSizes, v ≤ n → v ≤ snapDimension n) ∧
    (∀ n : Int, 0 < n → n < 32 → snapDimension n = 32) ∧
    (∀ n : Int, FindClosest n [] = n) := by
  refine ⟨?_, ?_, ?_⟩
  · intro n hpos h32
    have hsnap : snapDimension n = FindClosest n ImageSizes := by
      unfold snapDimension; rw [if_pos hpos]
    rw [hsnap]
    cases hfind : ImageSizes.find? (fun s => decide (s ≤ n)) with
    | some s =>
      have hm := findClosest_mem_le hfind
      have : FindClosest n ImageSizes = s := by unfold FindClosest; rw [hfind]
      rw [this]
      exact ⟨hm.1, hm.2, by
        intro v hv hvn
        have := findClosest_greatest imageSizes_sorted v hv hvn
        rwa [show FindClosest n ImageSizes = s from by unfold FindClosest; rw [hfind]] at this⟩
    | none =>
      exfalso
      have := List.find?_eq_none.mp hfind 32 (by decide)
      simp at this
      omega
  · intro n hpos h32
    have hsnap : snapDimension n = FindClosest n ImageSizes := by
      unfold snapDimension; rw [if_pos hpos]
    rw [hsnap]
    have hall : ∀ v ∈ ImageSizes, n < v := by
      intro v hv
      have h32v : (32:Int) ≤ v := by
        fin_cases hv <;> decide
      omega
    rw [findClosest_of_all_gt hall]
    rfl
  · intro n
    unfold FindClosest
    simp [List.find?]

/-- Witness for C4 at concrete inputs 1000 and 20. -/
theorem claim_C4_ladder_snapping_witness :
    (snapDimension 1000 ∈ ImageSizes ∧ snapDimension 1000 ≤ 1000 ∧
      ∀ v ∈ ImageSizes, v ≤ 1000 → v ≤ snapDimension 1000) ∧
    snapDimension 20 = 32 :=
  ⟨claim_C4_ladder_snapping.1 1000 (by decide) (by decide),
   claim_C4_ladder_snapping.2.1 20 (by decide) (by decide)⟩

/-- C5: for a bounded range start-end (with 0 ≤ start ≤ end), ServeFile
clamps end to size-1, responds 416 when start ≥ size, and otherwise responds
206 with Content-Range "bytes start-end/size" and Content-Length
end-start+1; for a suffix range -k (k > 0) it sets start to 0 when k ≥ size
and size-k otherwise; a header without the "bytes=" prefix, a specifier that
does not split into two parts, two empty halves, or an unparsable number all
yield 400. -/
theorem claim_C5_range_serving :
    (∀ S s e : Int, 0 ≤ s → s ≤ e →
      boundedCase S s e =
        if S ≤ s then .notSatisfiable
        else .content206 s (min e (S - 1)) (min e (S - 1) - s + 1)
          (contentRangeStr s (min e (S - 1)) S)) ∧
    (∀ S k : Int, 0 < k →
      suffixCase S k =
        .content206 (if k ≥ S then 0 else S - k) (S - 1)
          (S - 1 - (if k ≥ S then 0 else S - k) + 1)
          (contentRangeStr (if k ≥ S then 0 else S - k) (S - 1) S)) ∧
    (∀ S : Int, ∀ hdr : String, hdr.data ≠ [] →
      ¬ List.isPrefixOf "bytes=".data hdr.data →
      serveRange S hdr = .badRequest) ∧
    (∀ S : Int, rangeDecision S [] [] = .badRequest) ∧
    (∀ S : Int, ∀ a b : List Char, a ≠ [] → goParseInt64 a = none →
      rangeDecision S a b = .badRequest) := by
  refine ⟨?_, ?_, ?_, ?_, ?_⟩
  · intro S s e hs hse
    simp only [boundedCase]
    rw [if_neg (by omega), if_neg (by omega)]
    have hmin : (if e ≥ S then S - 1 else e) = min e (S - 1) := by
      split_ifs with h <;> omega
    by_cases hS : S ≤ s
    · rw [if_pos (show s ≥ S by omega), if_pos hS]
    · rw [if_neg (show ¬ s ≥ S by omega), if_neg hS, hmin]
  · intro S k hk
    simp only [suffixCase]
    rw [if_neg (by omega)]
  · intro S hdr hne hpre
    simp only [serveRange]
    rw [if_neg hne, if_pos hpre]
  · intro S
    unfold rangeDecision
    simp
  · intro S a b ha hnone
    unfold rangeDecision
    by_cases hb : b = []
    · rw [if_neg (by simp [hb]), if_pos ⟨ha, hb⟩, hnone]
    · rw [if_neg (by simp [ha]), if_neg (by simp [hb]), if_pos ⟨ha, hb⟩, hnone]

/-- Witness for C5 at size 100 with ranges 10-19 and -5, and a malformed
header. -/
theorem claim_C5_range_serving_witness :
    boundedCase 100 10 19 =
      RangeOutcome.content206 10 19 10 (contentRangeStr 10 19 100) ∧
    suffixCase 100 5 =
      RangeOutcome.content206 95 99 5 (contentRangeStr 95 99 100) ∧
    serveRange 100 "items=1-2" = RangeOutcome.badRequest ∧
    rangeDecision 100 "2x".data "7".data = RangeOutcome.badRequest := by
  refine ⟨?_, ?_, ?_, ?_⟩
  · have h := claim_C5_range_serving.1 100 10 19 (by decide) (by decide)
    rw [h]; norm_num
  · have h := claim_C5_range_serving.2.1 100 5 (by decide)
    rw [h]; norm_num
  · exact claim_C5_range_serving.2.2.1 100 "items=1-2" (by decide) (by decide)
  · exact claim_C5_range_serving.2.2.2.2 100 "2x".data "7".data (by decide) (by decide)

/-- C6 counterexample: a request with no If-None-Match header but a valid
If-Modified-Since no earlier than the file mtime receives 304, refuting
"a 304 response is returned only if If-None-Match equals the ETag". -/
theorem claim_C6_counterexample :
    conditional304 1000 5 "" (some 2000) = true ∧ "" ≠ etagOf 1000 5 := by
  decide

/-- C6 amended: the emitted ETag is the quoted hex mtime, dash, hex size;
and a 304 is returned iff If-None-Match equals exactly that ETag, or the
If-Modified-Since header parses to a time t with mtime ≤ t. -/
theorem claim_C6_etag_conditional :
    (∀ m s : Int, etagOf m s = "\"" ++ intToHex m ++ "-" ++ intToHex s ++ "\"") ∧
    (∀ m s : Int, ∀ inm : String, ∀ ims : Option Int,
      conditional304 m s inm ims = true ↔
        inm = etagOf m s ∨ ∃ t, ims = some t ∧ m ≤ t) := by
  constructor
  · intro m s
    rfl
  · intro m s inm ims
    unfold conditional304
    by_cases h : inm = etagOf m s
    · simp [h]
    · rw [if_neg h]
      cases ims with
      | none => simp [h]
      | some t => simp [h]

theorem mem_sortByMtime (files : List CacheFile) (f : CacheFile) :
    f ∈ sortByMtime files ↔ f ∈ files :=
  (List.perm_insertionSort (fun a b => a.mtime ≤ b.mtime) files).mem_iff

theorem sortByMtime_sorted (files : List CacheFile) :
    (sortByMtime files).Sorted (fun a b => a.mtime ≤ b.mtime) := by
  haveI : IsTotal CacheFile (fun a b => a.mtime ≤ b.mtime) :=
    ⟨fun a b => le_total a.mtime b.mtime⟩
  haveI : IsTrans CacheFile (fun a b => a.mtime ≤ b.mtime) :=
    ⟨fun _ _ _ h1 h2 => le_trans h1 h2⟩
  exact List.sorted_insertionSort (fun a b => a.mtime ≤ b.mtime) files

theorem evictLoop_prefix (maxBytes : Int) (l : List CacheFile) (total : Int) :
    evictLoop maxBytes [] l total <+: l := by
  induction l generalizing total with
  | nil => simp [evictLoop]
  | cons e rest ih =>
    unfold evictLoop
    by_cases h : total ≤ maxBytes
    · rw [if_pos h]
      exact List.nil_prefix
    · rw [if_neg h]
      simp only [List.mem_nil_iff, if_false]
      exact (List.prefix_cons_inj e).mpr (ih (total - e.size))

theorem evictLoop_total (maxBytes : Int) (l : List CacheFile) (total : Int) :
    total - totalSize (evictLoop maxBytes [] l total) ≤ maxBytes ∨
      evictLoop maxBytes [] l total = l := by
  induction l generalizing total with
  | nil => right; simp [evictLoop]
  | cons e rest ih =>
    unfold evictLoop
    by_cases h : total ≤ maxBytes
    · rw [if_pos h]
      left
      simpa [totalSize] using h
    · rw [if_neg h]
      simp only [List.mem_nil_iff, if_false]
      rcases ih (total - e.size) with h2 | h2
      · left
        simp only [totalSize, List.map_cons, List.sum_cons] at h2 ⊢
        omega
      · right
        rw [h2]

theorem evictLoop_minimal (maxBytes : Int) (l : List CacheFile) (total : Int) :
    ∀ p, p <+: evictLoop maxBytes [] l total → p ≠ evictLoop maxBytes [] l total →
      maxBytes < total - totalSize p := by
  induction l generalizing total with
  | nil =>
    intro p hp hne
    simp [evictLoop] at hp
    exact absurd hp (by simpa [evictLoop] using hne)
  | cons e rest ih =>
    intro p hp hne
    unfold evictLoop at hp hne
    by_cases h : total ≤ maxBytes
    · rw [if_pos h] at hp hne
      exact absurd (List.prefix_nil.mp hp) hne
    · rw [if_neg h] at hp hne
      simp only [List.mem_nil_iff, if_false] at hp hne
      cases p with
      | nil =>
        simpa [totalSize] using h
      | cons q qrest =>
        have hq : q = e ∧ qrest <+: evictLoop maxBytes [] rest (total - e.size) := by
          rcases hp with ⟨t, ht⟩
          injection ht with h1 h2
          exact ⟨h1, ⟨t, h2⟩⟩
        rcases hq with ⟨rfl, hrest⟩
        have hne2 : qrest ≠ evictLoop maxBytes [] rest (total - q.size) := by
          intro hc
          exact hne (by rw [hc])
        have := ih (total - q.size) qrest hrest hne2
        simp only [totalSize, List.map_cons, List.sum_cons] at this ⊢
        omega

theorem evictLoop_subset (maxBytes : Int) (failing : List String)
    (l : List CacheFile) (total : Int) :
    ∀ f ∈ evictLoop maxBytes failing l total, f ∈ l := by
  induction l generalizing total with
  | nil => intro f hf; simp [evictLoop] at hf
  | cons e rest ih =>
    intro f hf
    unfold evictLoop at hf
    by_cases h : total ≤ maxBytes
    · rw [if_pos h] at hf; simp at hf
    · rw [if_neg h] at hf
      by_cases hfail : e.path ∈ failing
      · rw [if_pos hfail] at hf
        exact List.mem_cons_of_mem e (ih total f hf)
      · rw [if_neg hfail] at hf
        rcases List.mem_cons.mp hf with rfl | hf2
        · exact List.mem_cons_self f rest
        · exact List.mem_cons_of_mem e (ih (total - e.size) f hf2)

/-- C7 counterexample: budget 10, a single non-lock file of size 100 whose
deletion fails. The pass succeeds (only walk errors abort), deletes nothing,
leaves the total at 100 > 10 with a non-lock file remaining — refuting the
claimed "final total ≤ B or every remaining file is a lock file". -/
theorem claim_C7_counterexample :
    evictDeleted 10 ["a"] [⟨"a", 100, 0⟩] = [] ∧
    isLockFile "a" = false ∧
    totalSize (nonLockFiles [⟨"a", 100, 0⟩]) = 100 := by
  refine ⟨?_, by decide, by decide⟩
  decide

/-- C7 amended: for every eviction pass with budget B > 0: if the initial
non-lock total is ≤ B nothing is deleted; deleted files are always non-lock
files of the directory; and provided no individual deletion fails, the
deleted files form a prefix of the mtime-sorted non-lock list, the prefix is
minimal (eviction stops as soon as the running total is within budget), and
afterwards the non-lock total is ≤ B or every non-lock file was deleted
(only lock files remain). With deletion failures the failed files are
skipped and these guarantees no longer hold. -/
theorem claim_C7_eviction :
    ∀ B : Int, ∀ files : List CacheFile, 0 < B →
      (totalSize (nonLockFiles files) ≤ B → evictDeleted B [] files = []) ∧
      (∀ failing : List String, ∀ f ∈ evictDeleted B failing files,
        f ∈ nonLockFiles files) ∧
      (evictDeleted B [] files <+: sortByMtime (nonLockFiles files)) ∧
      (∀ p, p <+: evictDeleted B [] files → p ≠ evictDeleted B [] files →
        totalSize (nonLockFiles files) ≤ B ∨
          B < totalSize (nonLockFiles files) - totalSize p) ∧
      (totalSize (nonLockFiles files) - totalSize (evictDeleted B [] files) ≤ B ∨
        evictDeleted B [] files = sortByMtime (nonLockFiles files)) := by
  intro B files hB
  have hBpos : ¬ B ≤ 0 := by omega
  refine ⟨?_, ?_, ?_, ?_, ?_⟩
  · intro hle
    unfold evictDeleted
    rw [if_neg hBpos, if_pos hle]
  · intro failing f hf
    unfold evictDeleted at hf
    rw [if_neg hBpos] at hf
    by_cases hle : totalSize (nonLockFiles files) ≤ B
    · rw [if_pos hle] at hf; simp at hf
    · rw [if_neg hle] at hf
      have := evictLoop_subset B failing (sortByMtime (nonLockFiles files))
        (totalSize (nonLockFiles files)) f hf
      exact (mem_sortByMtime (nonLockFiles files) f).mp this
  · unfold evictDeleted
    rw [if_neg hBpos]
    by_cases hle : totalSize (nonLockFiles files) ≤ B
    · rw [if_pos hle]
      exact List.nil_prefix
    · rw [if_neg hle]
      exact evictLoop_prefix B _ _
  · intro p hp hne
    by_cases hle : totalSize (nonLockFiles files) ≤ B
    · left; exact hle
    · right
      unfold evictDeleted at hp hne
      rw [if_neg hBpos, if_neg hle] at hp hne
      exact evictLoop_minimal B _ _ p hp hne
  · unfold evictDeleted
    rw [if_neg hBpos]
    by_cases hle : totalSize (nonLockFiles files) ≤ B
    · rw [if_pos hle]
      left
      simpa [totalSize] using hle
    · rw [if_neg hle]
      rcases evictLoop_total B (sortByMtime (nonLockFiles files))
        (totalSize (nonLockFiles files)) with h | h
      · left; exact h
      · right; exact h

/-- Witness for C7 with budget 10 over two non-lock files and a lock file. -/
theorem claim_C7_eviction_witness :
    (∀ f ∈ evictDeleted 10 []
        [⟨"x", 8, 5⟩, ⟨"y.lock", 50, 1⟩, ⟨"z", 7, 2⟩],
      f ∈ nonLockFiles [⟨"x", 8, 5⟩, ⟨"y.lock", 50, 1⟩, ⟨"z", 7, 2⟩]) ∧
    (evictDeleted 10 [] [⟨"x", 8, 5⟩, ⟨"y.lock", 50, 1⟩, ⟨"z", 7, 2⟩] <+:
      sortByMtime (nonLockFiles [⟨"x", 8, 5⟩, ⟨"y.lock", 50, 1⟩, ⟨"z", 7, 2⟩])) ∧
    evictDeleted 10 [] [⟨"x", 8, 5⟩, ⟨"y.lock", 50, 1⟩, ⟨"z", 7, 2⟩] = [⟨"z", 7, 2⟩] := by
  refine ⟨(claim_C7_eviction 10 _ (by decide)).2.1 [],
          (claim_C7_eviction 10 _ (by decide)).2.2.1, ?_⟩
  decide

/-- C9: the extraction timestamp is ss when set (non-zero) and half the
probed duration otherwise; the named presets map to 854x480, 1280x720,
1920x1080 and 3840x2160 with every other name falling back to 854x480; a
literal WxH thumbnail value produces resize-to-fill plus a center crop to
exactly WxH, while a preset resizes to the preset dimensions. -/
theorem claim_C9_video_thumbnail :
    (∀ ss : Int, ∀ d : ℚ, ss ≠ 0 → thumbnailTimestamp ss d = ss) ∧
    (∀ d : ℚ, thumbnailTimestamp 0 d = d / 2) ∧
    getQualityDimensions "480p" = (854, 480) ∧
    getQualityDimensions "720p" = (1280, 720) ∧
    getQualityDimensions "1080p" = (1920, 1080) ∧
    getQualityDimensions "4k" = (3840, 2160) ∧
    (∀ s : String,
      goToLower s ∉ ({"480p", "720p", "1080p", "4k"} : Set String) →
      getQualityDimensions s = (854, 480)) ∧
    (∀ jp th fp : String, ∀ q : Int, th.data.contains 'x' = true →
      thumbnailConvertArgs jp th q fp =
        [jp, "-resize", th ++ "^", "-gravity", "center", "-crop", th ++ "+0+0"]
          ++ (if 0 < q then ["-quality", toString q] else []) ++ [fp]) ∧
    (∀ jp th fp : String, ∀ q : Int, th.data.contains 'x' = false →
      thumbnailConvertArgs jp th q fp =
        [jp, "-resize",
          toString (getQualityDimensions th).1 ++ "x" ++
            toString (getQualityDimensions th).2]
          ++ (if 0 < q then ["-quality", toString q] else []) ++ [fp]) := by
  refine ⟨?_, ?_, by decide, by decide, by decide, by decide, ?_, ?_, ?_⟩
  · intro ss d h
    unfold thumbnailTimestamp
    rw [if_neg h]
  · intro d
    unfold thumbnailTimestamp
    rw [if_pos rfl]
  · intro s hs
    simp only [Set.mem_insert_iff, Set.mem_singleton_iff, not_or] at hs
    unfold getQualityDimensions
    rw [if_neg hs.1, if_neg hs.2.1, if_neg hs.2.2.1, if_neg hs.2.2.2]
  · intro jp th fp q hx
    simp only [thumbnailConvertArgs, hx, if_true]
    by_cases hq : 0 < q
    · rw [if_pos hq, if_pos hq]
      simp
    · rw [if_neg hq, if_neg hq]
      simp
  · intro jp th fp q hx
    simp only [thumbnailConvertArgs, hx]
    by_cases hq : 0 < q
    · rw [if_pos hq, if_pos hq]
      simp
    · rw [if_neg hq, if_neg hq]
      simp

/-- Witness for C9 at ss 7, a literal 60x60 spec and the 720p preset. -/
theorem claim_C9_video_thumbnail_witness :
    thumbnailTimestamp 7 90 = 7 ∧
    (goToLower "ultra" ∉ ({"480p", "720p", "1080p", "4k"} : Set String) →
      getQualityDimensions "ultra" = (854, 480)) ∧
    thumbnailConvertArgs "t.jpg" "60x60" 0 "f.webp" =
      ["t.jpg", "-resize", "60x60^", "-gravity", "center", "-crop",
       "60x60+0+0", "f.webp"] := by
  refine ⟨claim_C9_video_thumbnail.1 7 90 (by decide),
          fun h => claim_C9_video_thumbnail.2.2.2.2.2.2.1 "ultra" h, ?_⟩
  have h := claim_C9_video_thumbnail.2.2.2.2.2.2.2.1 "t.jpg" "60x60" "f.webp" 0
    (by decide)
  rw [h]
  decide

/-- C10: when several of detail, preview and thumbnail are present at once,
processVideo honors exactly one, with detail over preview over thumbnail;
when none is present the result is pass-through and ProcessedFilePath is
not assigned. -/
theorem claim_C10_video_dispatch :
    (∀ p t : String, processVideoAction true p t = .metadata) ∧
    (∀ p t : String, p ≠ "" → processVideoAction false p t = .preview) ∧
    (∀ t : String, t ≠ "" → processVideoAction false "" t = .thumbnail) ∧
    processVideoAction false "" "" = .passThrough ∧
    videoActionSetsPath (processVideoAction false "" "") = false := by
  refine ⟨?_, ?_, ?_, by decide, by decide⟩
  · intro p t
    unfold processVideoAction
    rw [if_pos rfl]
  · intro p t hp
    unfold processVideoAction
    rw [if_neg (by simp), if_pos hp]
  · intro t ht
    unfold processVideoAction
    rw [if_neg (by simp), if_neg (by simp), if_pos ht]

/-- Witness for C10 with all three options present and with preview and
thumbnail both present. -/
theorem claim_C10_video_dispatch_witness :
    processVideoAction true "480p" "720p" = VideoAction.metadata ∧
    processVideoAction false "480p" "720p" = VideoAction.preview ∧
    processVideoAction false "" "720p" = VideoAction.thumbnail :=
  ⟨claim_C10_video_dispatch.1 "480p" "720p",
   claim_C10_video_dispatch.2.1 "480p" "720p" (by decide),
   claim_C10_video_dispatch.2.2.1 "720p" (by decide)⟩

theorem goSplitChar_ne_nil (sep : Char) (l : List Char) :
    goSplitChar sep l ≠ [] := by
  cases l with
  | nil => simp [goSplitChar]
  | cons c rest =>
    unfold goSplitChar
    cases h : goSplitChar sep rest with
    | nil => simp
    | cons a t =>
      by_cases hc : c = sep
      · simp [hc]
      · simp [hc]

theorem goSplitChar_cons_eq_of_sep (sep : Char) (a : Char) (rest : List Char)
    {b : List Char} {t : List (List Char)}
    (h : goSplitChar sep rest = b :: t) (ha : a = sep) :
    goSplitChar sep (a :: rest) = [] :: b :: t := by
  simp [goSplitChar, h, ha]

theorem goSplitChar_cons_eq_of_ne (sep : Char) (a : Char) (rest : List Char)
    {b : List Char} {t : List (List Char)}
    (h : goSplitChar sep rest = b :: t) (ha : ¬ a = sep) :
    goSplitChar sep (a :: rest) = (a :: b) :: t := by
  simp [goSplitChar, h, ha]

theorem goSplitChar_sep_free (sep : Char) (l : List Char) :
    ∀ c ∈ goSplitChar sep l, ∀ x ∈ c, x ≠ sep := by
  induction l with
  | nil =>
    intro c hc x hx
    simp [goSplitChar] at hc
    subst hc
    simp at hx
  | cons a rest ih =>
    intro c hc x hx
    cases h : goSplitChar sep rest with
    | nil => exact absurd h (goSplitChar_ne_nil sep rest)
    | cons b t =>
      by_cases ha : a = sep
      · rw [goSplitChar_cons_eq_of_sep sep a rest h ha] at hc
        rcases List.mem_cons.mp hc with rfl | hc2
        · simp at hx
        · exact ih c (h ▸ hc2) x hx
      · rw [goSplitChar_cons_eq_of_ne sep a rest h ha] at hc
        rcases List.mem_cons.mp hc with rfl | hc2
        · rcases List.mem_cons.mp hx with rfl | hx2
          · exact ha
          · exact ih b (h ▸ List.mem_cons_self b t) x hx2
        · exact ih c (h ▸ List.mem_cons_of_mem b hc2) x hx

theorem goSplitChar_cons_sep (sep : Char) (t : List Char) :
    goSplitChar sep (sep :: t) = [] :: goSplitChar sep t := by
  cases h : goSplitChar sep t with
  | nil => exact absurd h (goSplitChar_ne_nil sep t)
  | cons b t2 => rw [goSplitChar_cons_eq_of_sep sep sep t h rfl]

theorem goSplitChar_append_sep (sep : Char) (c t : List Char)
    (hc : ∀ x ∈ c, x ≠ sep) :
    goSplitChar sep (c ++ sep :: t) = c :: goSplitChar sep t := by
  induction c with
  | nil => simpa using goSplitChar_cons_sep sep t
  | cons x xs ih =>
    have hx : x ≠ sep := hc x (List.mem_cons_self x xs)
    have ih2 := ih (fun y hy => hc y (List.mem_cons_of_mem x hy))
    show goSplitChar sep (x :: (xs ++ sep :: t)) = (x :: xs) :: goSplitChar sep t
    rw [goSplitChar_cons_eq_of_ne sep x (xs ++ sep :: t) ih2 hx]

theorem goSplitChar_no_sep (sep : Char) (l : List Char)
    (h : ∀ x ∈ l, x ≠ sep) :
    goSplitChar sep l = [l] := by
  induction l with
  | nil => simp [goSplitChar]
  | cons x xs ih =>
    have hx : x ≠ sep := h x (List.mem_cons_self x xs)
    have ih2 := ih (fun y hy => h y (List.mem_cons_of_mem x hy))
    rw [goSplitChar_cons_eq_of_ne sep x xs ih2 hx]

theorem goSplitChar_joinComps (comps : List (List Char)) (hne : comps ≠ [])
    (hfree : ∀ c ∈ comps, ∀ x ∈ c, x ≠ '/') :
    goSplitChar '/' (joinComps comps) = comps := by
  induction comps with
  | nil => exact absurd rfl hne
  | cons c rest ih =>
    cases rest with
    | nil =>
      show goSplitChar '/' (joinComps [c]) = [c]
      unfold joinComps
      exact goSplitChar_no_sep '/' c (hfree c (List.mem_cons_self c []))
    | cons d ds =>
      show goSplitChar '/' (c ++ '/' :: joinComps (d :: ds)) = c :: d :: ds
      rw [goSplitChar_append_sep '/' c _ (hfree c (List.mem_cons_self c _))]
      rw [ih (by simp) (fun e he x hx => hfree e (List.mem_cons_of_mem c he) x hx)]

theorem joinComps_ne_nil (c : List Char) (rest : List (List Char))
    (hc : c ≠ []) : joinComps (c :: rest) ≠ [] := by
  cases rest with
  | nil => simpa [joinComps] using hc
  | cons d ds => simp [joinComps, hc]

theorem isRootedL_joinComps (c : List Char) (rest : List (List Char))
    (hc : c ≠ []) (hfree : ∀ x ∈ c, x ≠ '/') :
    isRootedL (joinComps (c :: rest)) = false := by
  cases c with
  | nil => exact absurd rfl hc
  | cons x xs =>
    have hx : x ≠ '/' := hfree x (List.mem_cons_self x xs)
    cases rest with
    | nil => simp [joinComps, isRootedL, hx]
    | cons d ds => simp [joinComps, isRootedL, hx]

theorem normAux_nil (rooted : Bool) (out : List (List Char)) :
    normAux rooted [] out = out.reverse := rfl

theorem normAux_skip (rooted : Bool) (a : List Char)
    (rest out : List (List Char)) (h : a = [] ∨ a = ['.']) :
    normAux rooted (a :: rest) out = normAux rooted rest out := by
  simp only [normAux]
  rw [if_pos h]

theorem normAux_dd_nil (rooted : Bool) (rest : List (List Char)) :
    normAux rooted (['.', '.'] :: rest) [] =
      if rooted = true then normAux rooted rest []
      else normAux rooted rest [['.', '.']] := by
  cases rooted <;> rfl

theorem normAux_dd_push (rooted : Bool) (rest : List (List Char))
    (top : List Char) (outRest : List (List Char))
    (h : ¬ rooted = true ∧ top = ['.', '.']) :
    normAux rooted (['.', '.'] :: rest) (top :: outRest) =
      normAux rooted rest (['.', '.'] :: top :: outRest) := by
  rcases h with ⟨h1, h2⟩
  subst h2
  cases rooted
  · rfl
  · simp at h1

theorem normAux_dd_pop (rooted : Bool) (rest : List (List Char))
    (top : List Char) (outRest : List (List Char))
    (h : ¬ (¬ rooted = true ∧ top = ['.', '.'])) :
    normAux rooted (['.', '.'] :: rest) (top :: outRest) =
      normAux rooted rest outRest := by
  simp only [normAux]
  rw [if_pos trivial, if_neg h]
  rw [if_neg (by simp)]

theorem normAux_name (rooted : Bool) (a : List Char)
    (rest out : List (List Char)) (h1 : ¬ (a = [] ∨ a = ['.']))
    (h2 : a ≠ ['.', '.']) :
    normAux rooted (a :: rest) out = normAux rooted rest (a :: out) := by
  simp only [normAux]
  rw [if_neg h1, if_neg h2]

theorem normAux_elems (rooted : Bool) (comps : List (List Char)) :
    ∀ out : List (List Char),
    (∀ c ∈ comps, ∀ x ∈ c, x ≠ '/') →
    (∀ c ∈ out, c ≠ [] ∧ c ≠ ['.'] ∧ ∀ x ∈ c, x ≠ '/') →
    ∀ c ∈ normAux rooted comps out, c ≠ [] ∧ c ≠ ['.'] ∧ ∀ x ∈ c, x ≠ '/' := by
  induction comps with
  | nil =>
    intro out _ ho c hc
    exact ho c (by simpa [normAux] using hc)
  | cons a rest ih =>
    intro out hfree ho c hc
    have hfree2 : ∀ c ∈ rest, ∀ x ∈ c, x ≠ '/' :=
      fun c hc x hx => hfree c (List.mem_cons_of_mem a hc) x hx
    by_cases hskip : a = [] ∨ a = ['.']
    · rw [normAux_skip rooted a rest out hskip] at hc
      exact ih out hfree2 ho c hc
    · push_neg at hskip
      have hskip2 : ¬ (a = [] ∨ a = ['.']) := by
        push_neg
        exact hskip
      have hafree : ∀ x ∈ a, x ≠ '/' := hfree a (List.mem_cons_self a rest)
      by_cases hdd : a = ['.', '.']
      · subst hdd
        cases out with
        | nil =>
          rw [normAux_dd_nil rooted rest] at hc
          by_cases hr : rooted = true
          · rw [if_pos hr] at hc
            exact ih [] hfree2 (by simp) c hc
          · rw [if_neg hr] at hc
            refine ih [['.', '.']] hfree2 ?_ c hc
            intro e he
            rcases List.mem_singleton.mp he with rfl
            exact ⟨hskip.1, hskip.2, hafree⟩
        | cons top outRest =>
          by_cases hpush : ¬ rooted = true ∧ top = ['.', '.']
          · rw [normAux_dd_push rooted rest top outRest hpush] at hc
            refine ih (['.', '.'] :: top :: outRest) hfree2 ?_ c hc
            intro e he
            rcases List.mem_cons.mp he with rfl | he2
            · exact ⟨hskip.1, hskip.2, hafree⟩
            · exact ho e he2
          · rw [normAux_dd_pop rooted rest top outRest hpush] at hc
            exact ih outRest hfree2
              (fun e he => ho e (List.mem_cons_of_mem top he)) c hc
      · rw [normAux_name rooted a rest out hskip2 hdd] at hc
        refine ih (a :: out) hfree2 ?_ c hc
        intro e he
        rcases List.mem_cons.mp he with rfl | he2
        · exact ⟨hskip.1, hskip.2, hafree⟩
        · exact ho e he2

theorem normAux_rooted_no_dd (comps : List (List Char)) :
    ∀ out : List (List Char),
    (∀ c ∈ out, c ≠ ['.', '.']) →
    ∀ c ∈ normAux true comps out, c ≠ ['.', '.'] := by
  induction comps with
  | nil =>
    intro out ho c hc
    exact ho c (by simpa [normAux] using hc)
  | cons a rest ih =>
    intro out ho c hc
    by_cases hskip : a = [] ∨ a = ['.']
    · rw [normAux_skip true a rest out hskip] at hc
      exact ih out ho c hc
    · by_cases hdd : a = ['.', '.']
      · subst hdd
        cases out with
        | nil =>
          rw [normAux_dd_nil true rest, if_pos rfl] at hc
          exact ih [] (by simp) c hc
        | cons top outRest =>
          rw [normAux_dd_pop true rest top outRest (by simp)] at hc
          exact ih outRest (fun e he => ho e (List.mem_cons_of_mem top he)) c hc
      · rw [normAux_name true a rest out hskip hdd] at hc
        refine ih (a :: out) ?_ c hc
        intro e he
        rcases List.mem_cons.mp he with rfl | he2
        · exact hdd
        · exact ho e he2

theorem normAux_shape (comps : List (List Char)) :
    ∀ front : List (List Char), ∀ k : Nat, ['.', '.'] ∉ front →
    ∃ front2 : List (List Char), ∃ k2 : Nat,
      normAux false comps (front ++ List.replicate k ['.', '.']) =
        (front2 ++ List.replicate k2 ['.', '.']).reverse ∧
      ['.', '.'] ∉ front2 := by
  induction comps with
  | nil =>
    intro front k hf
    exact ⟨front, k, by rw [normAux_nil], hf⟩
  | cons a rest ih =>
    intro front k hf
    by_cases hskip : a = [] ∨ a = ['.']
    · rw [normAux_skip false a rest _ hskip]
      exact ih front k hf
    · by_cases hdd : a = ['.', '.']
      · subst hdd
        cases front with
        | nil =>
          cases k with
          | zero =>
            rw [show ([] : List (List Char)) ++ List.replicate 0 ['.', '.'] = []
              from rfl]
            rw [normAux_dd_nil false rest, if_neg (by simp)]
            have := ih [] 1 (by simp)
            simpa [List.replicate] using this
          | succ k0 =>
            rw [show ([] : List (List Char)) ++ List.replicate (k0 + 1) ['.', '.'] =
              ['.', '.'] :: List.replicate k0 ['.', '.'] from by
                simp [List.replicate_succ]]
            rw [normAux_dd_push false rest _ _ ⟨by simp, rfl⟩]
            have := ih [] (k0 + 2) (by simp)
            simpa [List.replicate_succ] using this
        | cons t fr =>
          have ht : t ≠ ['.', '.'] := by
            intro hc
            exact hf (hc ▸ List.mem_cons_self t fr)
          rw [List.cons_append, normAux_dd_pop false rest t _ (by simp [ht])]
          exact ih fr k (fun hc => hf (List.mem_cons_of_mem t hc))
      · have hskip2 : ¬ (a = [] ∨ a = ['.']) := hskip
        rw [normAux_name false a rest _ hskip2 hdd]
        have := ih (a :: front) k (by
          intro hc
          rcases List.mem_cons.mp hc with h1 | h2
          · exact hdd h1.symm
          · exact hf h2)
        simpa using this

theorem normAux_names (rooted : Bool) (comps : List (List Char)) :
    ∀ out : List (List Char),
    (∀ c ∈ comps, c ≠ [] ∧ c ≠ ['.'] ∧ c ≠ ['.', '.']) →
    normAux rooted comps out = out.reverse ++ comps := by
  induction comps with
  | nil =>
    intro out _
    simp [normAux]
  | cons a rest ih =>
    intro out h
    have ha := h a (List.mem_cons_self a rest)
    have h2 : ∀ c ∈ rest, c ≠ [] ∧ c ≠ ['.'] ∧ c ≠ ['.', '.'] :=
      fun c hc => h c (List.mem_cons_of_mem a hc)
    unfold normAux
    rw [if_neg (by simp [ha.1, ha.2.1]), if_neg ha.2.2]
    rw [ih (a :: out) h2]
    simp

theorem normAux_dd_block (rest : List (List Char)) (k : Nat) :
    ∀ j : Nat,
    normAux false (List.replicate k ['.', '.'] ++ rest) (List.replicate j ['.', '.']) =
      normAux false rest (List.replicate (k + j) ['.', '.']) := by
  induction k with
  | zero => intro j; simp
  | succ k0 ihk =>
    intro j
    rw [List.replicate_succ, List.cons_append]
    cases j with
    | zero =>
      rw [show List.replicate 0 (['.', '.'] : List Char) = [] from rfl]
      rw [normAux_dd_nil false _, if_neg (by simp)]
      rw [show [(['.', '.'] : List Char)] = List.replicate 1 ['.', '.'] from rfl]
      rw [ihk 1]
    | succ j0 =>
      rw [List.replicate_succ, normAux_dd_push false _ _ _ ⟨by simp, rfl⟩]
      rw [show (['.', '.'] : List Char) :: ['.', '.'] :: List.replicate j0 ['.', '.'] =
        List.replicate (j0 + 2) ['.', '.'] from by simp [List.replicate_succ]]
      rw [ihk (j0 + 2)]
      rw [show k0 + (j0 + 2) = k0 + 1 + (j0 + 1) from by omega]

theorem normAux_false_ident (k : Nat) (rest : List (List Char))
    (hrest : ∀ c ∈ rest, c ≠ [] ∧ c ≠ ['.'] ∧ c ≠ ['.', '.']) :
    normAux false (List.replicate k ['.', '.'] ++ rest) [] =
      List.replicate k ['.', '.'] ++ rest := by
  have h0 := normAux_dd_block rest k 0
  rw [show List.replicate 0 (['.', '.'] : List Char) = [] from rfl,
    Nat.add_zero] at h0
  rw [h0, normAux_names false rest _ hrest]
  rw [List.reverse_replicate]

theorem goCleanList_elems (l : List Char) :
    ∀ c ∈ normAux (isRootedL l) (goSplitChar '/' l) [],
      c ≠ [] ∧ c ≠ ['.'] ∧ ∀ x ∈ c, x ≠ '/' :=
  normAux_elems (isRootedL l) (goSplitChar '/' l) []
    (goSplitChar_sep_free '/' l) (by simp)

theorem goCleanList_idem (l : List Char) :
    goCleanList (goCleanList l) = goCleanList l := by
  have helems := goCleanList_elems l
  cases hr : isRootedL l with
  | true =>
    have hnodd : ∀ c ∈ normAux true (goSplitChar '/' l) [], c ≠ ['.', '.'] :=
      normAux_rooted_no_dd (goSplitChar '/' l) [] (by simp)
    rw [hr] at helems
    have hout : goCleanList l =
        '/' :: joinComps (normAux true (goSplitChar '/' l) []) := by
      simp only [goCleanList]
      rw [hr]
      simp
    rw [hout]
    cases hcomps : normAux true (goSplitChar '/' l) [] with
    | nil => decide
    | cons c rest =>
      rw [hcomps] at helems hnodd
      have hfree : ∀ e ∈ c :: rest, ∀ x ∈ e, x ≠ '/' :=
        fun e he x hx => (helems e he).2.2 x hx
      have hroot2 : isRootedL ('/' :: joinComps (c :: rest)) = true := by
        simp [isRootedL]
      simp only [goCleanList]
      rw [hroot2]
      rw [goSplitChar_cons_sep '/' (joinComps (c :: rest))]
      rw [goSplitChar_joinComps (c :: rest) (by simp) hfree]
      rw [normAux_skip true [] (c :: rest) [] (Or.inl rfl)]
      rw [normAux_names true (c :: rest) []
        (fun e he => ⟨(helems e he).1, (helems e he).2.1, hnodd e he⟩)]
      simp
  | false =>
    rw [hr] at helems
    obtain ⟨front2, k2, hshape, hnodd⟩ :=
      normAux_shape (goSplitChar '/' l) [] 0 (by simp)
    rw [show ([] : List (List Char)) ++ List.replicate 0 ['.', '.'] = []
      from rfl] at hshape
    have hshape2 : normAux false (goSplitChar '/' l) [] =
        List.replicate k2 ['.', '.'] ++ front2.reverse := by
      rw [hshape, List.reverse_append, List.reverse_replicate]
    have hout : goCleanList l =
        if joinComps (normAux false (goSplitChar '/' l) []) = [] then ['.']
        else joinComps (normAux false (goSplitChar '/' l) []) := by
      simp only [goCleanList]
      rw [hr]
      simp
    cases hcomps : normAux false (goSplitChar '/' l) [] with
    | nil =>
      rw [hcomps] at hout
      simp only [joinComps, if_pos rfl] at hout
      rw [hout]
      decide
    | cons c rest =>
      rw [hcomps] at helems hshape2 hout
      have hcne : c ≠ [] := (helems c (List.mem_cons_self c rest)).1
      have hbody : joinComps (c :: rest) ≠ [] := joinComps_ne_nil c rest hcne
      rw [if_neg hbody] at hout
      rw [hout]
      have hroot2 : isRootedL (joinComps (c :: rest)) = false :=
        isRootedL_joinComps c rest hcne
          (fun x hx => (helems c (List.mem_cons_self c rest)).2.2 x hx)
      have hid : normAux false (c :: rest) [] = c :: rest := by
        rw [hshape2]
        rw [normAux_false_ident k2 front2.reverse ?hfr]
        case hfr =>
          intro e he
          have hmem : e ∈ c :: rest := by
            rw [hshape2]
            exact List.mem_append_right _ he
          refine ⟨(helems e hmem).1, (helems e hmem).2.1, ?_⟩
          intro hc
          subst hc
          exact hnodd (List.mem_reverse.mp he)
      simp only [goCleanList]
      rw [hroot2]
      rw [goSplitChar_joinComps (c :: rest) (by simp)
        (fun e he x hx => (helems e he).2.2 x hx)]
      rw [hid]
      rw [if_neg hbody]
      simp

theorem goClean_idem (s : String) : goClean (goClean s) = goClean s := by
  show String.mk (goCleanList (String.mk (goCleanList s.data)).data) =
    String.mk (goCleanList s.data)
  exact congrArg String.mk (goCleanList_idem s.data)

theorem goJoin2_cleaned (a b : String) (h : ¬ (a = "" ∧ b = "")) :
    goClean (goJoin2 a b) = goJoin2 a b := by
  unfold goJoin2
  by_cases ha : a = ""
  · by_cases hb : b = ""
    · exact absurd ⟨ha, hb⟩ h
    · rw [if_pos ha, if_neg hb, goClean_idem]
  · by_cases hb : b = ""
    · rw [if_neg ha, if_pos hb, goClean_idem]
    · rw [if_neg ha, if_neg hb, goClean_idem]

theorem requestStage_all_err (pre : List (String × Bool)) :
    ∀ cur : String, ∀ ret : String, ∀ e : Bool,
    (∀ a ∈ pre, a.2 = true) →
    requestStage (pre ++ [(ret, e)]) cur = (ret, e) := by
  induction pre with
  | nil =>
    intro cur ret e _
    cases e with
    | false => rfl
    | true => rfl
  | cons a rest ih =>
    intro cur ret e h
    obtain ⟨r1, e1⟩ := a
    have he1 : e1 = true := h (r1, e1) (List.mem_cons_self _ _)
    subst he1
    show requestStage (rest ++ [(ret, e)]) r1 = (ret, e)
    exact ih r1 ret e (fun b hb => h b (List.mem_cons_of_mem _ hb))

/-- C2 counterexample: two storages, the first signals in-flight (returns
the STAGING sentinel), the second fails with an empty returned path; the
pipeline returns NotFound although an attempt signaled in-flight, because
the controller inspects only the last attempt's returned path. -/
theorem claim_C2_counterexample :
    serveMediaStaging [(STAGING, true), ("", true)] = StageResponse.notFound ∧
    (STAGING, true) ∈ [(STAGING, true), ("", true)] := by
  constructor
  · rfl
  · exact List.mem_cons_self _ _

/-- C2 amended: when every storage attempt fails, the pipeline returns the
temporary redirect with no-cache headers iff the LAST attempt returned the
STAGING sentinel (which Storage.StageFile produces by exhausting its poll
budget of 10 one-second polls: with eleven consecutive fresh-lock
observations the loop ends in the staging phase, while ten observations
leave it still polling), and NotFound for any other failing last attempt;
any successful attempt short-circuits to a served response. -/
theorem claim_C2_staging_response :
    (∀ pre : List (String × Bool), ∀ ret : String,
      (∀ a ∈ pre, a.2 = true) →
      serveMediaStaging (pre ++ [(ret, true)]) =
        if ret = STAGING then StageResponse.redirect307
        else StageResponse.notFound) ∧
    (∀ pre : List (String × Bool), ∀ ret : String,
      (∀ a ∈ pre, a.2 = true) →
      serveMediaStaging (pre ++ [(ret, false)]) = StageResponse.served) ∧
    (∀ lp : String,
      (lockLoop lp (List.replicate 11 LockAttempt.existsFresh) 0).1 =
        LockPhase.staging ∧
      (lockLoop lp (List.replicate 10 LockAttempt.existsFresh) 0).1 =
        LockPhase.outOfObs) ∧
    ((StageFileModel "/data" "/cache" "a.bin" false true
        (List.replicate 11 LockAttempt.existsFresh) true).map
      (fun r => (r.returned, r.isError)) = some (STAGING, true)) := by
  refine ⟨?_, ?_, ?_, by decide⟩
  · intro pre ret h
    unfold serveMediaStaging
    rw [requestStage_all_err pre "" ret true h]
    by_cases hs : ret = STAGING
    · simp [hs]
    · simp [hs]
  · intro pre ret h
    unfold serveMediaStaging
    rw [requestStage_all_err pre "" ret false h]
    rfl
  · intro lp
    constructor
    · show (lockLoop lp (List.replicate 11 LockAttempt.existsFresh) 0).1 =
        LockPhase.staging
      simp only [List.replicate, lockLoop, lockPollCycles]
      norm_num
    · show (lockLoop lp (List.replicate 10 LockAttempt.existsFresh) 0).1 =
        LockPhase.outOfObs
      simp only [List.replicate, lockLoop, lockPollCycles]
      norm_num

/-- Witness for C2: one failed attempt then a STAGING attempt redirects; a
non-STAGING failure yields NotFound; a success is served. -/
theorem claim_C2_staging_response_witness :
    serveMediaStaging [("x", true), (STAGING, true)] =
      StageResponse.redirect307 ∧
    serveMediaStaging [("x", true), ("", true)] = StageResponse.notFound ∧
    serveMediaStaging [("x", true), ("/cache/a", false)] =
      StageResponse.served := by
  refine ⟨?_, ?_, ?_⟩
  · have h := claim_C2_staging_response.1 [("x", true)] STAGING
      (by intro a ha; simp at ha; rw [ha])
    rw [if_pos rfl] at h
    exact h
  · have h := claim_C2_staging_response.1 [("x", true)] ""
      (by intro a ha; simp at ha; rw [ha])
    rw [if_neg (by decide)] at h
    exact h
  · exact claim_C2_staging_response.2.1 [("x", true)] "/cache/a"
      (by intro a ha; simp at ha; rw [ha])

theorem getD_set_self (l : List PC) (i : Nat) (a : PC) (hi : i < l.length) :
    (l.set i a).getD i .done = a := by
  rw [List.getD_eq_getElem?_getD, List.getElem?_set, if_pos rfl, if_pos hi]
  rfl

theorem getD_set_other (l : List PC) (i j : Nat) (a : PC) (h : i ≠ j) :
    (l.set i a).getD j .done = l.getD j .done := by
  rw [List.getD_eq_getElem?_getD, List.getElem?_set, if_neg h,
    ← List.getD_eq_getElem?_getD]

theorem lt_length_of_getD_ne (l : List PC) (i : Nat)
    (h : l.getD i .done ≠ .done) : i < l.length := by
  by_contra hc
  push_neg at hc
  rw [List.getD_eq_getElem?_getD, List.getElem?_eq_none (by omega)] at h
  simp at h

theorem stepActor_inv (s : SysState) (i : Nat) (h : MutexInv s) :
    MutexInv (stepActor s i) := by
  obtain ⟨h1, h2, h3⟩ := h
  cases hpc : s.pcs.getD i .done with
  | tryAcquire =>
    have hlen : i < s.pcs.length :=
      lt_length_of_getD_ne _ _ (by rw [hpc]; simp)
    cases hl : s.lock with
    | absent =>
      have hstep : stepActor s i = ⟨.heldBy i, s.pcs.set i .fetching⟩ := by
        unfold stepActor
        rw [hpc, hl]
      rw [hstep]
      refine ⟨by simp, ?_, ?_⟩
      · intro j
        by_cases hij : i = j
        · subst hij
          rw [show (⟨LockState.heldBy i, s.pcs.set i .fetching⟩ : SysState).pcs =
            s.pcs.set i .fetching from rfl, getD_set_self _ _ _ hlen]
          simp
        · rw [show (⟨LockState.heldBy i, s.pcs.set i .fetching⟩ : SysState).pcs =
            s.pcs.set i .fetching from rfl, getD_set_other _ _ _ _ hij]
          exact h2 j
      · intro j hj
        by_cases hij : i = j
        · subst hij
          rfl
        · rw [show (⟨LockState.heldBy i, s.pcs.set i .fetching⟩ : SysState).pcs =
            s.pcs.set i .fetching from rfl, getD_set_other _ _ _ _ hij] at hj
          exact absurd (hl ▸ h3 j hj) (by simp)
    | stale => exact absurd hl h1
    | heldBy k =>
      have hstep : stepActor s i = ⟨s.lock, s.pcs.set i .checkStale⟩ := by
        unfold stepActor
        rw [hpc, hl]
      rw [hstep]
      refine ⟨h1, ?_, ?_⟩
      · intro j
        by_cases hij : i = j
        · subst hij
          rw [show (⟨s.lock, s.pcs.set i .checkStale⟩ : SysState).pcs =
            s.pcs.set i .checkStale from rfl, getD_set_self _ _ _ hlen]
          simp
        · rw [show (⟨s.lock, s.pcs.set i .checkStale⟩ : SysState).pcs =
            s.pcs.set i .checkStale from rfl, getD_set_other _ _ _ _ hij]
          exact h2 j
      · intro j hj
        by_cases hij : i = j
        · subst hij
          rw [show (⟨s.lock, s.pcs.set i .checkStale⟩ : SysState).pcs =
            s.pcs.set i .checkStale from rfl, getD_set_self _ _ _ hlen] at hj
          exact absurd hj (by simp)
        · rw [show (⟨s.lock, s.pcs.set i .checkStale⟩ : SysState).pcs =
            s.pcs.set i .checkStale from rfl, getD_set_other _ _ _ _ hij] at hj
          exact h3 j hj
  | checkStale =>
    have hlen : i < s.pcs.length :=
      lt_length_of_getD_ne _ _ (by rw [hpc]; simp)
    cases hl : s.lock with
    | stale => exact absurd hl h1
    | absent =>
      have hstep : stepActor s i = ⟨s.lock, s.pcs.set i .tryAcquire⟩ := by
        unfold stepActor
        rw [hpc, hl]
      rw [hstep]
      refine ⟨h1, ?_, ?_⟩
      · intro j
        by_cases hij : i = j
        · subst hij
          rw [show (⟨s.lock, s.pcs.set i .tryAcquire⟩ : SysState).pcs =
            s.pcs.set i .tryAcquire from rfl, getD_set_self _ _ _ hlen]
          simp
        · rw [show (⟨s.lock, s.pcs.set i .tryAcquire⟩ : SysState).pcs =
            s.pcs.set i .tryAcquire from rfl, getD_set_other _ _ _ _ hij]
          exact h2 j
      · intro j hj
        by_cases hij : i = j
        · subst hij
          rw [show (⟨s.lock, s.pcs.set i .tryAcquire⟩ : SysState).pcs =
            s.pcs.set i .tryAcquire from rfl, getD_set_self _ _ _ hlen] at hj
          exact absurd hj (by simp)
        · rw [show (⟨s.lock, s.pcs.set i .tryAcquire⟩ : SysState).pcs =
            s.pcs.set i .tryAcquire from rfl, getD_set_other _ _ _ _ hij] at hj
          exact h3 j hj
    | heldBy k =>
      have hstep : stepActor s i = ⟨s.lock, s.pcs.set i .tryAcquire⟩ := by
        unfold stepActor
        rw [hpc, hl]
      rw [hstep]
      refine ⟨h1, ?_, ?_⟩
      · intro j
        by_cases hij : i = j
        · subst hij
          rw [show (⟨s.lock, s.pcs.set i .tryAcquire⟩ : SysState).pcs =
            s.pcs.set i .tryAcquire from rfl, getD_set_self _ _ _ hlen]
          simp
        · rw [show (⟨s.lock, s.pcs.set i .tryAcquire⟩ : SysState).pcs =
            s.pcs.set i .tryAcquire from rfl, getD_set_other _ _ _ _ hij]
          exact h2 j
      · intro j hj
        by_cases hij : i = j
        · subst hij
          rw [show (⟨s.lock, s.pcs.set i .tryAcquire⟩ : SysState).pcs =
            s.pcs.set i .tryAcquire from rfl, getD_set_self _ _ _ hlen] at hj
          exact absurd hj (by simp)
        · rw [show (⟨s.lock, s.pcs.set i .tryAcquire⟩ : SysState).pcs =
            s.pcs.set i .tryAcquire from rfl, getD_set_other _ _ _ _ hij] at hj
          exact h3 j hj
  | removeStale => exact absurd hpc (h2 i)
  | fetching =>
    have hlen : i < s.pcs.length :=
      lt_length_of_getD_ne _ _ (by rw [hpc]; simp)
    have hheld : s.lock = .heldBy i := h3 i hpc
    have hstep : stepActor s i = ⟨.absent, s.pcs.set i .done⟩ := by
      unfold stepActor
      rw [hpc]
    rw [hstep]
    refine ⟨by simp, ?_, ?_⟩
    · intro j
      by_cases hij : i = j
      · subst hij
        rw [show (⟨LockState.absent, s.pcs.set i .done⟩ : SysState).pcs =
          s.pcs.set i .done from rfl, getD_set_self _ _ _ hlen]
        simp
      · rw [show (⟨LockState.absent, s.pcs.set i .done⟩ : SysState).pcs =
          s.pcs.set i .done from rfl, getD_set_other _ _ _ _ hij]
        exact h2 j
    · intro j hj
      by_cases hij : i = j
      · subst hij
        rw [show (⟨LockState.absent, s.pcs.set i .done⟩ : SysState).pcs =
          s.pcs.set i .done from rfl, getD_set_self _ _ _ hlen] at hj
        exact absurd hj (by simp)
      · rw [show (⟨LockState.absent, s.pcs.set i .done⟩ : SysState).pcs =
          s.pcs.set i .done from rfl, getD_set_other _ _ _ _ hij] at hj
        have := h3 j hj
        rw [hheld] at this
        injection this with hk
        exact absurd hk hij
  | done =>
    have hstep : stepActor s i = s := by
      unfold stepActor
      rw [hpc]
    rw [hstep]
    exact ⟨h1, h2, h3⟩

theorem runSched_inv (sched : List Nat) :
    ∀ s : SysState, MutexInv s → MutexInv (runSched s sched) := by
  induction sched with
  | nil => intro s h; exact h
  | cons i rest ih =>
    intro s h
    exact ih (stepActor s i) (stepActor_inv s i h)

theorem lockLoop_no_fetch (lp : String) (obs : List LockAttempt) :
    ∀ c : Nat, ∀ src dst : String,
    FsOp.fetch src dst ∉ (lockLoop lp obs c).2 := by
  induction obs with
  | nil => intro c src dst h; simp [lockLoop] at h
  | cons o rest ih =>
    intro c src dst h
    cases o with
    | acquired => simp [lockLoop] at h
    | failOther => simp [lockLoop] at h
    | existsStale =>
      simp only [lockLoop, List.mem_cons] at h
      rcases h with h | h | h | h
      · exact absurd h (by simp)
      · exact absurd h (by simp)
      · exact absurd h (by simp)
      · exact ih (c + 1) src dst h
    | existsFresh =>
      simp only [lockLoop] at h
      by_cases hc : c ≥ lockPollCycles
      · rw [if_pos hc] at h
        simp at h
      · rw [if_neg hc] at h
        simp only [List.mem_cons] at h
        rcases h with h | h | h
        · exact absurd h (by simp)
        · exact absurd h (by simp)
        · exact ih (c + 1) src dst h
    | existsStatGone =>
      simp only [lockLoop] at h
      by_cases hc : c ≥ lockPollCycles
      · rw [if_pos hc] at h
        simp at h
      · rw [if_neg hc] at h
        simp only [List.mem_cons] at h
        rcases h with h | h | h
        · exact absurd h (by simp)
        · exact absurd h (by simp)
        · exact ih (c + 1) src dst h

theorem getLast?_append_pair (l1 l2 : List FsOp) (x y : FsOp) :
    (l1 ++ l2 ++ [x, y]).getLast? = some y := by
  rw [show l1 ++ l2 ++ [x, y] = (l1 ++ l2 ++ [x]) ++ [y] from by simp]
  exact List.getLast?_concat _

theorem stageFileModel_fetch_last :
    ∀ b c p : String, ∀ mk : Bool, ∀ obs : List LockAttempt, ∀ fOk : Bool,
    ∀ run : StageRun, ∀ src dst : String,
    StageFileModel b c p false mk obs fOk = some run →
    FsOp.fetch src dst ∈ run.ops →
    run.ops.getLast? = some (FsOp.removeOp (goJoin2 c p ++ ".lock")) := by
  intro b c p mk obs fOk run src dst hmodel hfetch
  simp only [StageFileModel] at hmodel
  split at hmodel
  · rw [← Option.some_inj.mp hmodel] at hfetch
    simp at hfetch
  · split at hmodel
    · rw [← Option.some_inj.mp hmodel] at hfetch
      simp at hfetch
    · split at hmodel
      · rw [← Option.some_inj.mp hmodel] at hfetch
        simp at hfetch
      · split at hmodel
        · rw [← Option.some_inj.mp hmodel] at hfetch
          simp at hfetch
        · split at hmodel
          · exact absurd hmodel (by simp)
          · rw [← Option.some_inj.mp hmodel] at hfetch
            exfalso
            rcases List.mem_append.mp hfetch with h | h
            · simp at h
            · exact lockLoop_no_fetch _ obs 0 src dst h
          · rw [← Option.some_inj.mp hmodel] at hfetch
            exfalso
            rcases List.mem_append.mp hfetch with h | h
            · simp at h
            · exact lockLoop_no_fetch _ obs 0 src dst h
          · split at hmodel
            · rw [← Option.some_inj.mp hmodel]
              exact getLast?_append_pair _ _ _ _
            · rw [← Option.some_inj.mp hmodel]
              exact getLast?_append_pair _ _ _ _

/-- C3 counterexample: a crashed writer left a stale lock; requesters 0 and
1 both observe it stale, 0 removes it and atomically creates its own lock
and starts fetching, then 1 performs its (unconditional) removal — deleting
0's fresh lock — creates its own and fetches too: both requesters execute
the storage fetch simultaneously. -/
theorem claim_C3_counterexample :
    (runSched ⟨LockState.stale, [PC.tryAcquire, PC.tryAcquire]⟩
      [0, 0, 1, 1, 0, 0, 1, 1]).pcs = [PC.fetching, PC.fetching] := by
  decide

/-- C3 amended: exclusive-create acquisition does guarantee at most one
concurrent fetch per staging path PROVIDED no stale lock is ever observed:
from any state satisfying the mutual-exclusion invariant (in particular the
initial state with no lock present), every schedule preserves it, and the
invariant forces any two fetching requesters to coincide. The lock file is
deleted on every exit path of the fetch (the trailing operation after any
fetch is the removal of the lock). Stale-lock recovery breaks the guarantee
(see the counterexample). -/
theorem claim_C3_single_flight :
    (∀ s : SysState, ∀ sched : List Nat,
      MutexInv s → MutexInv (runSched s sched)) ∧
    (∀ n : Nat, MutexInv ⟨LockState.absent, List.replicate n PC.tryAcquire⟩) ∧
    (∀ s : SysState, MutexInv s → ∀ i j : Nat,
      s.pcs.getD i .done = .fetching → s.pcs.getD j .done = .fetching →
      i = j) ∧
    (∀ b c p : String, ∀ mk : Bool, ∀ obs : List LockAttempt, ∀ fOk : Bool,
      ∀ run : StageRun, ∀ src dst : String,
      StageFileModel b c p false mk obs fOk = some run →
      FsOp.fetch src dst ∈ run.ops →
      run.ops.getLast? = some (FsOp.removeOp (goJoin2 c p ++ ".lock"))) := by
  refine ⟨fun s sched h => runSched_inv sched s h, ?_, ?_,
    stageFileModel_fetch_last⟩
  · intro n
    refine ⟨by simp, ?_, ?_⟩
    · intro i
      show (List.replicate n PC.tryAcquire).getD i .done ≠ .removeStale
      rw [List.getD_eq_getElem?_getD, List.getElem?_replicate]
      by_cases hi : i < n
      · rw [if_pos hi]
        simp
      · rw [if_neg hi]
        simp
    · intro i hi
      rw [show (⟨LockState.absent, List.replicate n PC.tryAcquire⟩ :
        SysState).pcs = List.replicate n PC.tryAcquire from rfl,
        List.getD_eq_getElem?_getD, List.getElem?_replicate] at hi
      by_cases hin : i < n
      · rw [if_pos hin] at hi
        exact absurd hi (by simp)
      · rw [if_neg hin] at hi
        exact absurd hi (by simp)
  · intro s h i j hi hj
    have h1 := h.2.2 i hi
    have h2 := h.2.2 j hj
    rw [h1] at h2
    exact LockState.heldBy.inj h2

/-- Witness for C3: the invariant holds after a concrete schedule from the
two-requester initial state, and a concrete staged fetch ends by removing
the lock. -/
theorem claim_C3_single_flight_witness :
    MutexInv (runSched ⟨LockState.absent, List.replicate 2 PC.tryAcquire⟩
      [0, 1, 0]) ∧
    (StageFileModel "/data" "/cache" "f.bin" false true
      [LockAttempt.acquired] true = some
        ⟨"/cache/f.bin", false,
         [FsOp.statFile "/cache/f.bin", FsOp.mkdirAll "/cache",
          FsOp.openExcl "/cache/f.bin.lock",
          FsOp.fetch "/data/f.bin" "/cache/f.bin",
          FsOp.removeOp "/cache/f.bin.lock"]⟩) ∧
    [FsOp.statFile "/cache/f.bin", FsOp.mkdirAll "/cache",
     FsOp.openExcl "/cache/f.bin.lock",
     FsOp.fetch "/data/f.bin" "/cache/f.bin",
     FsOp.removeOp "/cache/f.bin.lock"].getLast? =
      some (FsOp.removeOp (goJoin2 "/cache" "f.bin" ++ ".lock")) := by
  refine ⟨claim_C3_single_flight.1 _ _ (claim_C3_single_flight.2.1 2),
    by decide, ?_⟩
  exact claim_C3_single_flight.2.2.2 "/data" "/cache" "f.bin" true
    [LockAttempt.acquired] true
    ⟨"/cache/f.bin", false,
     [FsOp.statFile "/cache/f.bin", FsOp.mkdirAll "/cache",
      FsOp.openExcl "/cache/f.bin.lock",
      FsOp.fetch "/data/f.bin" "/cache/f.bin",
      FsOp.removeOp "/cache/f.bin.lock"]⟩
    "/data/f.bin" "/cache/f.bin" (by decide) (by decide)

theorem stagePrefix_facts (cacheDir path : String)
    (h2 : goHasPrefix (goClean (goJoin2 cacheDir path))
      (goClean cacheDir ++ "/") = true) :
    goHasPrefix (goJoin2 cacheDir path) (goClean cacheDir ++ "/") = true ∧
    goHasPrefix (goJoin2 cacheDir path ++ ".lock")
      (goClean cacheDir ++ "/") = true := by
  have hne : ¬ (cacheDir = "" ∧ path = "") := by
    rintro ⟨hc, hp⟩
    subst hc
    subst hp
    exact absurd h2 (by decide)
  have hid := goJoin2_cleaned cacheDir path hne
  rw [hid] at h2
  refine ⟨h2, ?_⟩
  unfold goHasPrefix at h2 ⊢
  rw [show (goJoin2 cacheDir path ++ ".lock").data =
    (goJoin2 cacheDir path).data ++ ".lock".data from rfl]
  have hpre := List.isPrefixOf_iff_prefix.mp h2
  exact List.isPrefixOf_iff_prefix.mpr (hpre.trans (List.prefix_append _ _))

theorem storagePrefix_fact (basePath path : String) (hb : basePath ≠ "")
    (h1 : goHasPrefix (goClean (goJoin2 basePath path))
      (goClean basePath ++ "/") = true) :
    goHasPrefix (goJoin2 basePath path) (goClean basePath ++ "/") = true := by
  have hid := goJoin2_cleaned basePath path (by
    rintro ⟨hb2, _⟩
    exact hb hb2)
  rw [hid] at h1
  exact h1

theorem guard_true_of_not_false {b : Bool} (h : ¬ b = false) : b = true := by
  cases b with
  | true => rfl
  | false => exact absurd rfl h

/-- C1: for every Storage.StageFile call, the resolved storage path (when
the storage has a non-empty base path) and the resolved cache path start
with their cleaned configured roots followed by the separator whenever any
filesystem operation is performed, every operation the call performs touches
only the staged path, its lock or directory, or fetches the joined storage
path onto the staged path; and when either resolved path escapes its root,
StageFile returns an error having performed no filesystem operation. -/
theorem claim_C1_path_traversal :
    ∀ basePath cacheDir path : String, ∀ se mk : Bool,
    ∀ obs : List LockAttempt, ∀ fOk : Bool, ∀ run : StageRun,
    StageFileModel basePath cacheDir path se mk obs fOk = some run →
    (((basePath ≠ "" ∧ goHasPrefix (goClean (goJoin2 basePath path))
          (goClean basePath ++ "/") = false) ∨
        goHasPrefix (goClean (goJoin2 cacheDir path))
          (goClean cacheDir ++ "/") = false) →
      run.isError = true ∧ run.ops = []) ∧
    (run.ops ≠ [] →
      goHasPrefix (goJoin2 cacheDir path) (goClean cacheDir ++ "/") = true ∧
      goHasPrefix (goJoin2 cacheDir path ++ ".lock")
        (goClean cacheDir ++ "/") = true ∧
      ∀ src dst : String, FsOp.fetch src dst ∈ run.ops →
        dst = goJoin2 cacheDir path ∧ src = goJoin2 basePath path ∧
        (basePath ≠ "" →
          goHasPrefix (goJoin2 basePath path) (goClean basePath ++ "/") =
            true)) := by
  intro basePath cacheDir path se mk obs fOk run hmodel
  simp only [StageFileModel] at hmodel
  split at hmodel
  · rw [← Option.some_inj.mp hmodel]
    exact ⟨fun _ => ⟨rfl, rfl⟩, fun hops => absurd rfl hops⟩
  · rename_i hg1
    split at hmodel
    · rw [← Option.some_inj.mp hmodel]
      exact ⟨fun _ => ⟨rfl, rfl⟩, fun hops => absurd rfl hops⟩
    · rename_i hg2
      have h2 : goHasPrefix (goClean (goJoin2 cacheDir path))
          (goClean cacheDir ++ "/") = true := guard_true_of_not_false hg2
      have hesc : (((basePath ≠ "" ∧ goHasPrefix (goClean (goJoin2 basePath path))
            (goClean basePath ++ "/") = false) ∨
          goHasPrefix (goClean (goJoin2 cacheDir path))
            (goClean cacheDir ++ "/") = false) → False) := by
        rintro (h | h)
        · exact hg1 h
        · exact hg2 h
      have hfetchFacts : ∀ src dst : String,
          FsOp.fetch src dst = FsOp.fetch (goJoin2 basePath path)
            (goJoin2 cacheDir path) →
          dst = goJoin2 cacheDir path ∧ src = goJoin2 basePath path ∧
          (basePath ≠ "" →
            goHasPrefix (goJoin2 basePath path) (goClean basePath ++ "/") =
              true) := by
        intro src dst hf
        injection hf with hsrc hdst
        refine ⟨hdst, hsrc, ?_⟩
        intro hb
        have h1 : goHasPrefix (goClean (goJoin2 basePath path))
            (goClean basePath ++ "/") = true := by
          by_cases hcase : goHasPrefix (goClean (goJoin2 basePath path))
              (goClean basePath ++ "/") = false
          · exact absurd ⟨hb, hcase⟩ hg1
          · exact guard_true_of_not_false hcase
        exact storagePrefix_fact basePath path hb h1
      split at hmodel
      · rw [← Option.some_inj.mp hmodel]
        refine ⟨fun h => absurd h hesc, fun _ => ?_⟩
        refine ⟨(stagePrefix_facts cacheDir path h2).1,
          (stagePrefix_facts cacheDir path h2).2, ?_⟩
        intro src dst hf
        simp at hf
      · split at hmodel
        · rw [← Option.some_inj.mp hmodel]
          refine ⟨fun h => absurd h hesc, fun _ => ?_⟩
          refine ⟨(stagePrefix_facts cacheDir path h2).1,
            (stagePrefix_facts cacheDir path h2).2, ?_⟩
          intro src dst hf
          simp at hf
        · split at hmodel
          · exact absurd hmodel (by simp)
          · rw [← Option.some_inj.mp hmodel]
            refine ⟨fun h => absurd h hesc, fun _ => ?_⟩
            refine ⟨(stagePrefix_facts cacheDir path h2).1,
              (stagePrefix_facts cacheDir path h2).2, ?_⟩
            intro src dst hf
            exfalso
            rcases List.mem_append.mp hf with h | h
            · simp at h
            · exact lockLoop_no_fetch _ obs 0 src dst h
          · rw [← Option.some_inj.mp hmodel]
            refine ⟨fun h => absurd h hesc, fun _ => ?_⟩
            refine ⟨(stagePrefix_facts cacheDir path h2).1,
              (stagePrefix_facts cacheDir path h2).2, ?_⟩
            intro src dst hf
            exfalso
            rcases List.mem_append.mp hf with h | h
            · simp at h
            · exact lockLoop_no_fetch _ obs 0 src dst h
          · split at hmodel
            · rw [← Option.some_inj.mp hmodel]
              refine ⟨fun h => absurd h hesc, fun _ => ?_⟩
              refine ⟨(stagePrefix_facts cacheDir path h2).1,
                (stagePrefix_facts cacheDir path h2).2, ?_⟩
              intro src dst hf
              rcases List.mem_append.mp hf with h | h
              · rcases List.mem_append.mp h with h3 | h3
                · simp at h3
                · exact absurd h3 (lockLoop_no_fetch _ obs 0 src dst)
              · simp only [List.mem_cons, List.mem_singleton] at h
                rcases h with h3 | h3
                · exact hfetchFacts src dst h3
                · simp at h3
            · rw [← Option.some_inj.mp hmodel]
              refine ⟨fun h => absurd h hesc, fun _ => ?_⟩
              refine ⟨(stagePrefix_facts cacheDir path h2).1,
                (stagePrefix_facts cacheDir path h2).2, ?_⟩
              intro src dst hf
              rcases List.mem_append.mp hf with h | h
              · rcases List.mem_append.mp h with h3 | h3
                · simp at h3
                · exact absurd h3 (lockLoop_no_fetch _ obs 0 src dst)
              · simp only [List.mem_cons, List.mem_singleton] at h
                rcases h with h3 | h3
                · exact hfetchFacts src dst h3
                · simp at h3

/-- Witness for C1: a clean request keeps both resolved paths under their
roots; a traversal request returns an error with no operation performed. -/
theorem claim_C1_path_traversal_witness :
    (goHasPrefix (goJoin2 "/cache" "a/b.jpg") (goClean "/cache" ++ "/") =
      true) ∧
    (let runEsc : StageRun := ⟨"", true, []⟩
     runEsc.isError = true ∧ runEsc.ops = []) := by
  constructor
  · have h := claim_C1_path_traversal "/data" "/cache" "a/b.jpg" true true []
      true ⟨"/cache/a/b.jpg", false, [FsOp.statFile "/cache/a/b.jpg"]⟩
      (by decide)
    exact (h.2 (by decide)).1
  · have h := claim_C1_path_traversal "/data" "/cache" "../../etc/passwd"
      true true [] true ⟨"", true, []⟩ (by decide)
    exact h.1 (Or.inr (by decide))

theorem md5hex_vector :
    md5hex "" = "d41d8cd98f00b204e9800998ecf8427e" := by
  set_option maxRecDepth 10000 in decide

/-- C8: each derivation's output path is a deterministic function of the
source identity and canonicalized options (it does not depend on the
filesystem state), and re-invoking the processor when that output exists
returns the same path immediately with no external-tool work. -/
theorem claim_C8_derivation_cache :
    (∀ sp : String, ∀ o : ImgOptions, ∀ fs1 fs2 : String → Bool,
      (convertImage sp o fs1).processedPath =
        (convertImage sp o fs2).processedPath) ∧
    (∀ sp : String, ∀ o : ImgOptions, ∀ fs : String → Bool,
      (convertImage sp o fs).processedPath = convertImagePath sp o) ∧
    (∀ sp : String, ∀ o : ImgOptions, ∀ fs : String → Bool,
      fs (convertImagePath sp o) = true →
      convertImage sp o fs = ⟨convertImagePath sp o, false⟩) ∧
    (∀ cd op pv th : String, ∀ ss : Int, ∀ fmt : String,
      ∀ fs1 fs2 : String → Bool,
      (generateThumbnailRun cd op pv th ss fmt fs1).processedPath =
        (generateThumbnailRun cd op pv th ss fmt fs2).processedPath) ∧
    (∀ cd op pv th : String, ∀ ss : Int, ∀ fmt : String,
      ∀ fs : String → Bool,
      fs (thumbnailFinalPath cd op pv th ss fmt) = true →
      generateThumbnailRun cd op pv th ss fmt fs =
        ⟨thumbnailFinalPath cd op pv th ss fmt, false⟩) := by
  refine ⟨?_, ?_, ?_, ?_, ?_⟩
  · intro sp o fs1 fs2
    unfold convertImage
    by_cases h1 : fs1 (convertImagePath sp o) = true
    · rw [if_pos h1]
      by_cases h2 : fs2 (convertImagePath sp o) = true
      · rw [if_pos h2]
      · rw [if_neg h2]
    · rw [if_neg h1]
      by_cases h2 : fs2 (convertImagePath sp o) = true
      · rw [if_pos h2]
      · rw [if_neg h2]
  · intro sp o fs
    unfold convertImage
    by_cases h : fs (convertImagePath sp o) = true
    · rw [if_pos h]
    · rw [if_neg h]
  · intro sp o fs h
    unfold convertImage
    rw [if_pos h]
  · intro cd op pv th ss fmt fs1 fs2
    unfold generateThumbnailRun
    by_cases h1 : fs1 (thumbnailFinalPath cd op pv th ss fmt) = true
    · rw [if_pos h1]
      by_cases h2 : fs2 (thumbnailFinalPath cd op pv th ss fmt) = true
      · rw [if_pos h2]
      · rw [if_neg h2]
    · rw [if_neg h1]
      by_cases h2 : fs2 (thumbnailFinalPath cd op pv th ss fmt) = true
      · rw [if_pos h2]
      · rw [if_neg h2]
  · intro cd op pv th ss fmt fs h
    unfold generateThumbnailRun
    rw [if_pos h]

/-- Witness for C8: with the output present on disk, re-invocation is a
cache hit with the same path and no tool work. -/
theorem claim_C8_derivation_cache_witness :
    convertImage "/cache/photo.jpg"
      ⟨800, 600, false, 85, "", "webp", ""⟩ (fun _ => true) =
      ⟨convertImagePath "/cache/photo.jpg"
        ⟨800, 600, false, 85, "", "webp", ""⟩, false⟩ ∧
    convertImagePath "/cache/photo.jpg" ⟨800, 600, false, 85, "", "webp", ""⟩ =
      "/cache/photo800x600afalseq85dp.webp" ∧
    generateThumbnailRun "/cache" "/v/movie.mp4" "" "720p" 0 "jpg"
      (fun _ => true) =
      ⟨thumbnailFinalPath "/cache" "/v/movie.mp4" "" "720p" 0 "jpg", false⟩ := by
  refine ⟨claim_C8_derivation_cache.2.2.1 "/cache/photo.jpg"
    ⟨800, 600, false, 85, "", "webp", ""⟩ (fun _ => true) rfl, by decide,
    claim_C8_derivation_cache.2.2.2.2 "/cache" "/v/movie.mp4" "" "720p" 0
      "jpg" (fun _ => true) rfl⟩

end Mediax
